import Mathlib

/-!
# Shallow embedding of `shellscriptprogram.c`

The shell keeps three pieces of state: a singly linked list of aliases, a
fixed array of history lines and the search path.  C strings are modelled as
lists of characters; a buffer is the list of its bytes, and the byte one past
the end of the list is the terminating NUL.  A `NULL` list head is `[]`.
Undefined behaviour of the C program (reading through a `NULL` or dangling
pointer, writing outside a buffer) is modelled by an explicit "undefined"
result; it is never given a value.
-/

namespace Shell

/-- Contents of a C character buffer; the terminating NUL sits one past the end. -/
abbrev CStr := List Char

/-- The string terminator `'\0'`. -/
def NUL : Char := Char.ofNat 0

/-- `#define MAX_LINE 512`. -/
def MAX_LINE : Nat := 512

/-- `#define MAX_ARGS 10`. -/
def MAX_ARGS : Nat := 10

/-- `#define MAX_HISTORY 20`. -/
def MAX_HISTORY : Nat := 20

/-- `#define BUFFER_SIZE 1024`. -/
def BUFFER_SIZE : Nat := 1024

/-- `#define ALIAS_USAGE ...` (four lines, no final newline). -/
def ALIAS_USAGE : CStr :=
  ("Usage of alias:\n" ++
   "alias                      - Display a list of all aliases\n" ++
   "alias alias_name='command' - Add a new alias\n" ++
   "alias -r alias_name        - Remove a single alias\n" ++
   "alias -c                   - Remove all aliases").toList

/-! ## Bytes and C strings -/

/-- `buf[i]`: the byte at offset `i`; offset `buf.length` holds the terminator. -/
def byteAt (buf : CStr) (i : Nat) : Char := buf.getD i NUL

/-- The C string that starts at offset `p` of `buf`: the bytes up to the first NUL. -/
def cstr (buf : CStr) (p : Nat) : CStr := (buf.drop p).takeWhile (fun c => c != NUL)

/-- `strlen(buf)`. -/
def strlen (buf : CStr) : Nat := (cstr buf 0).length

/-- `strncmp(buf, lit, n) == 0` for a literal `lit` of exactly `n` non-NUL characters. -/
def strncmp_eq (buf lit : CStr) (n : Nat) : Bool := decide ((cstr buf 0).take n = lit)

/-- The scanning loop `while(*it != '\0') { if(*it == c) break; ++it; }`:
the distance from the start to the first `c`, if one occurs before the terminator. -/
def scan_for (c : Char) : CStr → Option Nat
  | [] => none
  | x :: xs =>
    if x = NUL then none
    else if x = c then some 0
    else (scan_for c xs).map (fun k => k + 1)

/-! ## The alias list (`struct Alias`) -/

/-- One node of the list: `name` and `command`; `next` is the tail of the Lean list. -/
structure Alias where
  name : CStr
  command : CStr
deriving DecidableEq, Repr

/-- `alias_create`: a fresh node with `next = NULL`. -/
def alias_create (name command : CStr) : Alias := ⟨name, command⟩

/-- `alias_destroy`: frees every node and returns `NULL`. -/
def alias_destroy (_alias_ptr : List Alias) : List Alias := []

/-- The `while(iterator->next != NULL)` loop of `alias_remove`, on the chain that
hangs off `iterator->next`: the first node named `name` is unlinked, then `break`. -/
def alias_remove_loop (name : CStr) : List Alias → List Alias
  | [] => []
  | n :: rest => if n.name = name then rest else n :: alias_remove_loop name rest

/-- `alias_remove`: empty list, matching head, or the loop over the rest. -/
def alias_remove (alias_ptr : List Alias) (name : CStr) : List Alias :=
  match alias_ptr with
  | [] => []
  | a :: next => if a.name = name then next else a :: alias_remove_loop name next

/-- `alias_add`: remove `name`, then link a new node after the last one. -/
def alias_add (alias_ptr : List Alias) (name command : CStr) : List Alias :=
  let alias_ptr := alias_remove alias_ptr name
  let new_alias_ptr := alias_create name command
  match alias_ptr with
  | [] => [new_alias_ptr]
  | a :: rest => (a :: rest) ++ [new_alias_ptr]

/-- `alias_display`: one `printf("%s=\"%s\"\n", name, command)` per node, head first. -/
def alias_display : List Alias → List CStr
  | [] => []
  | a :: next => (a.name ++ "=\"".toList ++ a.command ++ "\"\n".toList) :: alias_display next

/-- `alias_query`: the command of the first node named `name`, `NULL` if there is none. -/
def alias_query : List Alias → CStr → Option CStr
  | [], _ => none
  | a :: next, name => if a.name = name then some a.command else alias_query next name

/-! ## `execute_alias_command` -/

/-- `isspace` in the C locale. -/
def isspace (c : Char) : Bool :=
  c = ' ' || c = '\t' || c = '\n' || c = Char.ofNat 11 || c = Char.ofNat 12 || c = '\r'

/-- A literal of a `sscanf` format: the input must start with it. -/
def match_lit (lit s : CStr) : Option CStr :=
  if s.take lit.length = lit then some (s.drop lit.length) else none

/-- `sscanf(command, "alias -r %s", alias_name)`: the literal `alias`, optional white
space, the literal `-r`, optional white space, then a maximal run of non-space
characters.  `none` when nothing is stored into `alias_name` (the buffer then stays
uninitialised) or when the run does not fit into `BUFFER_SIZE` bytes. -/
def sscanf_alias_r (command : CStr) : Option CStr :=
  match match_lit "alias".toList (cstr command 0) with
  | none => none
  | some s1 =>
    match match_lit "-r".toList (s1.dropWhile isspace) with
    | none => none
    | some s2 =>
      let tok := (s2.dropWhile isspace).takeWhile (fun c => !isspace c)
      if tok = [] ∨ BUFFER_SIZE ≤ tok.length then none else some tok

/-- The two `puts` calls made when `incorrect_usage` is set. -/
def incorrect_usage_out : List CStr :=
  ["Incorrect usage.\n".toList, ALIAS_USAGE ++ ['\n']]

/-- `execute_alias_command(command, alias_ptr)`: the new list head and the text
written to standard output; `none` when the C code reads past the terminator of
`command` or passes an uninitialised name to `alias_remove`. -/
def execute_alias_command (command : CStr) (alias_ptr : List Alias) :
    Option (List Alias × List CStr) :=
  if strncmp_eq command "alias -".toList 7 then
    if byteAt command 7 = 'c' then
      some (alias_destroy alias_ptr, [])
    else if byteAt command 7 = 'r' then
      match sscanf_alias_r command with
      | none => none
      | some alias_name => some (alias_remove alias_ptr alias_name, [])
    else
      some (alias_ptr, incorrect_usage_out)
  else if strlen command < 5 then
    none
  else if byteAt command 5 ≠ NUL then
    if strlen command < 7 then
      none
    else
      match scan_for '=' (command.drop 7) with
      | none => some (alias_ptr, incorrect_usage_out)
      | some k =>
        let command1 := command.set (7 + k) NUL
        if byteAt command1 (7 + k + 1) = '\'' then
          match scan_for '\'' (command1.drop (7 + k + 2)) with
          | none => some (alias_ptr, incorrect_usage_out)
          | some j =>
            let command2 := command1.set (7 + k + 2 + j) NUL
            some (alias_add alias_ptr (cstr command2 6) (cstr command2 (7 + k + 2)), [])
        else
          some (alias_ptr, incorrect_usage_out)
  else
    some (alias_ptr, alias_display alias_ptr)

/-! ## `strtok` and the tokenizer of `main` -/

/-- What one call of `strtok` leaves behind: the buffer (a delimiter may have been
overwritten by NUL), the saved position for the next call, and the offset of the
token that is returned (`none` for `NULL`). -/
structure Strtok where
  buf : CStr
  save : Nat
  token : Option Nat
deriving DecidableEq, Repr

/-- `strtok` scanning `buf` from offset `p` (the argument of the first call, the saved
position of a call with `NULL`): skip delimiters, return `NULL` at the terminator,
otherwise cut the token at the next delimiter. -/
def strtok (buf : CStr) (p : Nat) (delim : CStr) : Strtok :=
  let p1 := p + ((buf.drop p).takeWhile (fun c => decide (c ≠ NUL ∧ c ∈ delim))).length
  if byteAt buf p1 = NUL then ⟨buf, p1, none⟩
  else
    let e := p1 + ((buf.drop p1).takeWhile (fun c => decide (c ≠ NUL ∧ c ∉ delim))).length
    if byteAt buf e = NUL then ⟨buf, e, some p1⟩
    else ⟨buf.set e NUL, e + 1, some p1⟩

/-- The delimiters `" \n"` of the tokenizer. -/
def DELIM : CStr := [' ', '\n']

/-- The loop `while (token != NULL && i < MAX_ARGS-1) { args[i] = token;
token = strtok(NULL, " \n"); i++; }`.  The first argument is `MAX_ARGS-1 - i`, `st` is
the result of the latest `strtok` call, `args` the pointers stored so far. -/
def tokenize_loop : Nat → Strtok → List Nat → CStr × List Nat
  | 0, st, args => (st.buf, args)
  | n + 1, st, args =>
    match st.token with
    | none => (st.buf, args)
    | some t => tokenize_loop n (strtok st.buf st.save DELIM) (args ++ [t])

/-- Lines 394-402 of the source (and 504-511, the same loop on a history entry): the
buffer after all `strtok` calls, and the strings `args[0..i-1]`; `args[i]` is `NULL`. -/
def tokenize (line : CStr) : CStr × List CStr :=
  let r := tokenize_loop (MAX_ARGS - 1) (strtok line 0 DELIM) []
  (r.1, r.2.map (cstr r.1))

/-! ## `atoi` -/

/-- The decimal digits at the start of a string, accumulated left to right. -/
def parse_digits (acc : Nat) : CStr → Nat
  | [] => acc
  | c :: cs =>
    if '0' ≤ c ∧ c ≤ '9' then parse_digits (acc * 10 + (c.toNat - '0'.toNat)) cs else acc

/-- `strtol(s, NULL, 10)` with a 64-bit `long`: white space, an optional sign, digits;
the result saturates at `LONG_MIN` and `LONG_MAX`. -/
def strtol (s : CStr) : Int :=
  match s.dropWhile isspace with
  | '-' :: t => max (-(parse_digits 0 t : Int)) (-(2 : Int) ^ 63)
  | '+' :: t => min (parse_digits 0 t : Int) ((2 : Int) ^ 63 - 1)
  | t => min (parse_digits 0 t : Int) ((2 : Int) ^ 63 - 1)

/-- `atoi(s)` as the C library computes it, `(int) strtol(s, NULL, 10)`: the value is
reduced to a 32-bit two's complement `int`. -/
def atoi (s : CStr) : Int := (strtol s + 2 ^ 31) % 2 ^ 32 - 2 ^ 31

/-! ## State of the interactive loop -/

/-- The variables of `main` that live across iterations.  `history` has `MAX_HISTORY`
slots, `none` being a pointer that is uninitialised or already freed.  `path` points
either at the string returned by `getenv("PATH")` or at `path_copy`; `path_copy` is a
buffer of `strlen(PATH) + 1` bytes, so its contents always have the length of the
initial `PATH`. -/
structure ShellState where
  history : List (Option CStr)
  history_count : Nat
  alias_ptr : List Alias
  path_env : CStr
  path_is_copy : Bool
  path_copy : CStr
deriving DecidableEq, Repr

/-- The state on entry to the loop, for a given value of the `PATH` variable. -/
def ShellState.init (env_path : CStr) : ShellState :=
  { history := List.replicate MAX_HISTORY none
    history_count := 0
    alias_ptr := []
    path_env := env_path
    path_is_copy := false
    path_copy := env_path }

/-- What the operating system answers during one iteration: whether `open` succeeds and
whether `fork` succeeds. -/
structure World where
  open_ok : Bool
  fork_ok : Bool
deriving DecidableEq, Repr

/-- Effects of the shell that are visible outside it, in the order they happen. -/
inductive Event where
  /-- text written by `printf` or `puts` -/
  | stdout (text : CStr)
  /-- text written by `perror` -/
  | perror (tag : CStr)
  /-- `system(command)` -/
  | system (command : CStr)
  /-- `chdir(dir)`, `none` standing for `getenv("HOME")` -/
  | chdir (dir : Option CStr)
  /-- `setenv("PATH", value, 1)` -/
  | setenv_PATH (value : CStr)
  /-- `fork`, `execvp(argv[0], argv)` in the child with the given files bound to its
  standard input and output, and a wait in the parent -/
  | spawn (argv : List CStr) (stdin_file stdout_file : Option CStr)
  /-- `pipe`, two children joined by it, the second writing to `stdout_file`; the
  parent closes both ends and waits for both -/
  | pipeline (argv1 argv2 : List CStr) (stdout_file : CStr)
deriving DecidableEq, Repr

/-- Result of one iteration of the loop. -/
inductive Outcome where
  /-- the loop goes on to read the next line -/
  | next (s : ShellState) (events : List Event)
  /-- the process has terminated with the given status -/
  | exited (code : Nat) (events : List Event)
  /-- the C program has undefined behaviour on this input -/
  | undefined
deriving DecidableEq, Repr

/-! ## History -/

/-- The loop `for(int i=1; i < MAX_HISTORY; i++) history[i-1] = history[i];`. -/
def history_shift (history : List (Option CStr)) : List (Option CStr) :=
  (List.range' 1 (MAX_HISTORY - 1)).foldl (fun h i => h.set (i - 1) (h.getD i none)) history

/-- Lines 379-391: a line that does not start with a newline is copied (`strdup`) into
the next free slot, or into the last slot after shifting when the array is full. -/
def record_history (s : ShellState) (line : CStr) : ShellState :=
  if byteAt line 0 ≠ '\n' then
    if s.history_count < MAX_HISTORY then
      { s with history := s.history.set s.history_count (some (cstr line 0))
               history_count := s.history_count + 1 }
    else
      { s with history := (history_shift s.history).set (MAX_HISTORY - 1) (some (cstr line 0)) }
  else s

/-- Lines 477-480: `printf("%d %s", i+1, history[i])` for `i` from `i` up to
`history_count`; `none` when a slot below `history_count` holds no valid string. -/
def myhistory_list (history : List (Option CStr)) : Nat → Nat → Option (List Event)
  | 0, _ => some []
  | n + 1, i =>
    match history.getD i none with
    | none => none
    | some h =>
      (myhistory_list history n (i + 1)).map
        (fun rest => Event.stdout (Nat.toDigits 10 (i + 1) ++ [' '] ++ cstr h 0) :: rest)

/-- Lines 485-489: every slot below `history_count` is freed, the count is reset. -/
def myhistory_clear (s : ShellState) : ShellState :=
  { s with history := (List.range s.history_count).foldl (fun h i => h.set i none) s.history
           history_count := 0 }

/-- The `myhistory` built-in (lines 472-514); `args` are the tokens of the line. -/
def myhistory_builtin (s : ShellState) (args : List CStr) : Outcome :=
  match args.get? 1 with
  | none =>
    match myhistory_list s.history s.history_count 0 with
    | none => Outcome.undefined
    | some out => Outcome.next s out
  | some a1 =>
    if a1 = "-c".toList then
      Outcome.next (myhistory_clear s) []
    else if a1 = "-e".toList ∧ args.get? 2 ≠ none then
      let index := atoi ((args.get? 2).getD [])
      if index < 1 ∨ index > s.history_count then
        Outcome.next s [Event.stdout "Error: invalid history index\n".toList]
      else
        let slot := ((s.history_count + index - 1) % MAX_HISTORY).toNat
        match s.history.getD slot none with
        | none => Outcome.undefined
        | some command =>
          Outcome.next { s with history := s.history.set slot (some (tokenize command).1) } []
    else
      Outcome.next s []

/-! ## The search path -/

/-- The string `path` points at. -/
def ShellState.path (s : ShellState) : CStr :=
  if s.path_is_copy then cstr s.path_copy 0 else s.path_env

/-- `strcat(dest, src)` for a source outside the buffer `dest`: `src` and a terminator
are written at the end of the string in `dest`; `none` when they do not fit. -/
def strcat (dest src : CStr) : Option CStr :=
  let n := strlen dest
  if n + src.length < dest.length then
    some (dest.take n ++ src ++ NUL :: dest.drop (n + src.length + 1))
  else if n + src.length = dest.length then
    some (dest.take n ++ src)
  else none

/-- `strcat(buf, buf + p)`, the source being the string at offset `p` of the same
buffer: `none` when the bytes written and the bytes read overlap. -/
def strcat_within (buf : CStr) (p : Nat) : Option CStr :=
  let n := strlen buf
  let src := cstr buf p
  if n + src.length < p then
    some (buf.take n ++ src ++ NUL :: buf.drop (n + src.length + 1))
  else none

/-- The loop of `path - dir` (lines 452-460).  `fuel` bounds the number of iterations
(every `strtok` call moves the saved position forward), `st` is the latest `strtok`
result, `found` the flag.  Returns the buffer and the flag, `none` on an undefined
`strcat`. -/
def path_remove_loop (dir : CStr) : Nat → Strtok → Bool → Option (CStr × Bool)
  | 0, st, found => if st.token = none then some (st.buf, found) else none
  | fuel + 1, st, found =>
    match st.token with
    | none => some (st.buf, found)
    | some p =>
      if cstr st.buf p ≠ dir then
        match strcat_within st.buf p with
        | none => none
        | some b1 =>
          match strcat b1 [':'] with
          | none => none
          | some b2 => path_remove_loop dir fuel (strtok b2 st.save [':']) found
      else
        path_remove_loop dir fuel (strtok st.buf st.save [':']) true

/-- The `path` built-in (lines 437-470). -/
def path_builtin (s : ShellState) (args : List CStr) : Outcome :=
  match args.get? 1 with
  | none => Outcome.next s [Event.stdout (s.path ++ ['\n'])]
  | some a1 =>
    if a1 = ['+'] ∧ args.get? 2 ≠ none then
      match strcat s.path_copy [':'] with
      | none => Outcome.undefined
      | some b1 =>
        match strcat b1 ((args.get? 2).getD []) with
        | none => Outcome.undefined
        | some b2 =>
          Outcome.next { s with path_copy := b2, path_is_copy := true }
            [Event.setenv_PATH (cstr b2 0)]
    else if a1 = ['-'] ∧ args.get? 2 ≠ none then
      match path_remove_loop ((args.get? 2).getD []) (s.path_copy.length + 1)
          (strtok s.path_copy 0 [':']) false with
      | none => Outcome.undefined
      | some (buf, found) =>
        if found then
          if strlen buf = 0 then Outcome.undefined
          else
            let b := buf.set (strlen buf - 1) NUL
            Outcome.next { s with path_copy := b, path_is_copy := true }
              [Event.setenv_PATH (cstr b 0)]
        else
          Outcome.next { s with path_copy := buf }
            [Event.stdout "Error: path element not found\n".toList]
    else
      Outcome.next s []

/-! ## The other built-ins and the dispatcher -/

/-- The `who` branch (lines 515-564).  `args[1]` is compared without a `NULL` test; a
`NULL` file name handed to `open` is undefined as well. -/
def who_builtin (w : World) (s : ShellState) (args : List CStr) : Outcome :=
  match args.get? 1 with
  | none => Outcome.undefined
  | some a1 =>
    if a1 = ['<'] then
      match args.get? 2 with
      | none => Outcome.undefined
      | some file =>
        if !w.open_ok then Outcome.exited 1 [Event.perror "open".toList]
        else if !w.fork_ok then Outcome.exited 1 [Event.perror "fork".toList]
        else Outcome.next s [Event.spawn args (some file) none]
    else if a1 = ['>'] then
      match args.get? 2 with
      | none => Outcome.undefined
      | some file =>
        if !w.open_ok then Outcome.exited 1 [Event.perror "open".toList]
        else if !w.fork_ok then Outcome.exited 1 [Event.perror "fork".toList]
        else Outcome.next s [Event.spawn args none (some file)]
    else
      if !w.fork_ok then Outcome.exited 1 [Event.perror "fork".toList]
      else Outcome.next s [Event.spawn args none none]

/-- The `alias` branch of `main` (lines 618-629), on the buffer `line` as the tokenizer
left it.  `line + 6` must lie within the bytes that `fgets` wrote. -/
def main_alias (s : ShellState) (line : CStr) : Outcome :=
  let line1 := line.set (strlen line - 1) NUL
  if line1.length < 6 then Outcome.undefined
  else
    let t1 := strtok line1 6 ['=']
    let t2 := strtok t1.buf t1.save []
    match t1.token, t2.token with
    | some p1, some p2 =>
      let arg1 := cstr t2.buf p1
      let arg2 := cstr t2.buf p2
      if arg2 = [] then
        Outcome.next { s with alias_ptr := alias_remove s.alias_ptr arg1 } []
      else
        Outcome.next { s with alias_ptr := alias_add s.alias_ptr arg1 arg2 } []
    | _, _ => Outcome.next s [Event.stdout (ALIAS_USAGE ++ ['\n'])]

/-- `execute_other_command`: the string handed to `system`. -/
def execute_other_command (command : CStr) (alias_ptr : List Alias) : Event :=
  match alias_query alias_ptr command with
  | some query => Event.system query
  | none => Event.system command

/-- The `if`/`else if` chain of the interactive loop (lines 406-637), given the buffer
`line` after tokenizing and the tokens `args`. -/
def dispatch (w : World) (s : ShellState) (line : CStr) (args : List CStr) : Outcome :=
  match args with
  | [] => Outcome.undefined
  | a0 :: rest =>
    if a0 = "cd".toList then
      Outcome.next s [Event.chdir rest.head?]
    else if a0 = "exit".toList then
      match rest with
      | [] => Outcome.exited 0 []
      | _ :: _ =>
        if w.fork_ok then Outcome.exited 0 [Event.spawn rest none none]
        else Outcome.next s [Event.stdout "Error: could not fork process\n".toList]
    else if a0 = "path".toList then
      path_builtin s args
    else if a0 = "myhistory".toList then
      myhistory_builtin s args
    else if a0 = "who".toList then
      who_builtin w s args
    else if a0 = "who".toList ∧ args.get? 1 = some ['|'] ∧ args.get? 2 = some "grep".toList
        ∧ args.get? 3 ≠ none ∧ args.get? 4 = some ['>'] ∧ args.get? 5 ≠ none then
      if !w.fork_ok then Outcome.exited 1 [Event.perror "fork".toList]
      else Outcome.next s [Event.pipeline args (args.drop 2) ((args.get? 5).getD [])]
    else if strncmp_eq line "alias".toList 5 then
      main_alias s line
    else if cstr line 0 = "alias".toList then
      Outcome.next s ((alias_display s.alias_ptr).map Event.stdout)
    else if cstr line 0 = "exit".toList then
      Outcome.exited 0 []
    else
      Outcome.next s [execute_other_command (cstr line 0) s.alias_ptr]

/-- One iteration of the interactive loop on the line `raw` that `fgets` stored. -/
def interactive_step (w : World) (s : ShellState) (raw : CStr) : Outcome :=
  dispatch w (record_history s raw) (tokenize raw).1 (tokenize raw).2

/-- The interactive loop on a sequence of lines, each with the answers of the operating
system during its iteration; the events of all iterations are collected. -/
def run (s : ShellState) : List (World × CStr) → Outcome
  | [] => Outcome.next s []
  | (w, raw) :: rest =>
    match interactive_step w s raw with
    | Outcome.next s1 ev =>
      match run s1 rest with
      | Outcome.next s2 ev2 => Outcome.next s2 (ev ++ ev2)
      | Outcome.exited c ev2 => Outcome.exited c (ev ++ ev2)
      | Outcome.undefined => Outcome.undefined
    | Outcome.exited c ev => Outcome.exited c ev
    | Outcome.undefined => Outcome.undefined

/-- The operations on the alias list that the shell offers. -/
inductive AliasOp where
  | add (name command : CStr)
  | remove (name : CStr)
  | clear
deriving DecidableEq, Repr

/-- Effect of one operation on the list. -/
def AliasOp.apply (alias_ptr : List Alias) : AliasOp → List Alias
  | AliasOp.add name command => alias_add alias_ptr name command
  | AliasOp.remove name => alias_remove alias_ptr name
  | AliasOp.clear => alias_destroy alias_ptr

/-- An operating system in which every `open` and `fork` succeeds. -/
def w0 : World := ⟨true, true⟩

/-- The events of an outcome, `none` for undefined behaviour. -/
def Outcome.events : Outcome → Option (List Event)
  | Outcome.next _ ev => some ev
  | Outcome.exited _ ev => some ev
  | Outcome.undefined => none

/-- The state in which the loop continues, if it does. -/
def Outcome.state : Outcome → Option ShellState
  | Outcome.next s _ => some s
  | _ => none

/-- The names the dispatcher compares `args[0]` with. -/
def BUILTIN_NAMES : List CStr :=
  ["cd".toList, "exit".toList, "path".toList, "myhistory".toList, "who".toList]

/-- Ten one-word command lines `c0` .. `c9`, each typed with every system call
succeeding. -/
def ten_lines : List (World × CStr) :=
  (List.range 10).map (fun i => (w0, 'c' :: Nat.toDigits 10 i ++ ['\n']))

/-- Twenty-one distinct lines `c0` .. `c20`. -/
def lines21 : List CStr :=
  (List.range 21).map (fun i => 'c' :: Nat.toDigits 10 i ++ ['\n'])

/-- The lines of `lines21`, each typed with every system call succeeding. -/
def inputs21 : List (World × CStr) := lines21.map (fun l => (w0, l))

/-- The runs of a line, read left to right: the maximal blocks of consecutive
characters that are not in `delim`.  `cur` is the run being read. -/
def runs_aux (delim : CStr) : CStr → CStr → List CStr
  | cur, [] => if cur = [] then [] else [cur]
  | cur, c :: cs =>
    if c ∈ delim then
      if cur = [] then runs_aux delim [] cs else cur :: runs_aux delim [] cs
    else runs_aux delim (cur ++ [c]) cs

/-- Specification of a tokenizer, in the words of the description: the maximal runs of
characters of `line` outside `delim`, in order. -/
def maximal_runs (delim line : CStr) : List CStr := runs_aux delim [] line

/-- The white-space characters (those `isspace` accepts). -/
def WHITESPACE : CStr := [' ', '\t', '\n', Char.ofNat 11, Char.ofNat 12, '\r']

/-- At most `n` tokens of the text `r`, cut the way `strtok` cuts them: skip
delimiters, take characters up to the next delimiter, go on behind it. -/
def toks (delim : CStr) : Nat → CStr → List CStr
  | 0, _ => []
  | n + 1, r =>
    if r.dropWhile (fun c => decide (c ∈ delim)) = [] then []
    else
      (r.dropWhile (fun c => decide (c ∈ delim))).takeWhile (fun c => decide (c ∉ delim)) ::
        toks delim n
          ((r.dropWhile (fun c => decide (c ∈ delim))).dropWhile (fun c => decide (c ∉ delim)))

/-! ## Batch mode -/

/-- The loop of the batch tokenizer (lines 358-362): `while (token != NULL)
{ args[num_args] = token; num_args++; token = strtok(NULL, " \n"); }`, with no test of
`num_args`.  The first argument bounds the number of `strtok` calls in the model (each
call that returns a token moves the saved position forward, so `strlen(line) + 1` calls
always suffice); `st` is the result of the latest call, `args` the pointers stored. -/
def batch_tokenize_loop : Nat → Strtok → List Nat → CStr × List Nat
  | 0, st, args => (st.buf, args)
  | fuel + 1, st, args =>
    match st.token with
    | none => (st.buf, args)
    | some t => batch_tokenize_loop fuel (strtok st.buf st.save DELIM) (args ++ [t])

/-- Lines 356-363: the buffer after all `strtok` calls and the strings stored in
`args[0..num_args-1]`; `args[num_args] = NULL` is written behind them. -/
def batch_tokenize (line : CStr) : CStr × List CStr :=
  let r := batch_tokenize_loop (line.length + 1) (strtok line 0 DELIM) []
  (r.1, r.2.map (cstr r.1))

/-- One iteration of the batch loop (lines 354-366) on the line `raw` read from the
file.  `args` has `MAX_ARGS` elements and the indices `0 .. num_args` are written, so
`MAX_ARGS` tokens or more write past the array; on a line without a token
`execute_commands` calls `execvp(NULL, args)`.  Otherwise the command is run in a child
and awaited; the state of the shell is not touched. -/
def batch_step (w : World) (s : ShellState) (raw : CStr) : Outcome :=
  let args := (batch_tokenize raw).2
  if MAX_ARGS ≤ args.length then Outcome.undefined
  else if args = [] then Outcome.undefined
  else if !w.fork_ok then Outcome.exited 1 [Event.perror "fork".toList]
  else Outcome.next s [Event.spawn args none none]

/-- The line `echo a b` followed by the nine lines `c1` .. `c9`. -/
def replay_lines : List (World × CStr) :=
  (w0, "echo a b\n".toList) ::
    (List.range 9).map (fun i => (w0, 'c' :: Nat.toDigits 10 (i + 1) ++ ['\n']))

/-! # Theorems -/

/-! ## The alias list -/

theorem alias_remove_loop_eq (name : CStr) (l : List Alias) :
    alias_remove_loop name l = alias_remove l name := by
  cases l <;> simp [alias_remove_loop, alias_remove]

theorem alias_remove_cons (a : Alias) (l : List Alias) (name : CStr) :
    alias_remove (a :: l) name = if a.name = name then l else a :: alias_remove l name := by
  show (if a.name = name then l else a :: alias_remove_loop name l) = _
  rw [alias_remove_loop_eq]

theorem alias_add_eq (l : List Alias) (name command : CStr) :
    alias_add l name command = alias_remove l name ++ [⟨name, command⟩] := by
  unfold alias_add alias_create
  cases alias_remove l name <;> simp

theorem alias_remove_sublist (l : List Alias) (name : CStr) :
    (alias_remove l name).Sublist l := by
  induction l with
  | nil => simp [alias_remove]
  | cons a l ih =>
    rw [alias_remove_cons]
    split
    · exact List.sublist_cons_self a l
    · exact ih.cons₂ a

theorem alias_remove_of_not_mem (l : List Alias) (name : CStr)
    (h : ∀ b ∈ l, b.name ≠ name) : alias_remove l name = l := by
  induction l with
  | nil => simp [alias_remove]
  | cons a l ih =>
    rw [alias_remove_cons, if_neg (h a (List.mem_cons_self a l)),
      ih (fun b hb => h b (List.mem_cons_of_mem a hb))]

theorem alias_remove_append (pre post : List Alias) (a : Alias) (name : CStr)
    (hpre : ∀ b ∈ pre, b.name ≠ name) (ha : a.name = name) :
    alias_remove (pre ++ a :: post) name = pre ++ post := by
  induction pre with
  | nil => simp [alias_remove_cons, ha]
  | cons b pre ih =>
    rw [List.cons_append, alias_remove_cons, if_neg (hpre b (List.mem_cons_self b pre)),
      ih (fun c hc => hpre c (List.mem_cons_of_mem b hc))]
    rfl

theorem alias_remove_nodup (l : List Alias) (name : CStr)
    (h : (l.map Alias.name).Nodup) : ((alias_remove l name).map Alias.name).Nodup :=
  h.sublist ((alias_remove_sublist l name).map Alias.name)

theorem alias_remove_eq_filter (l : List Alias) (name : CStr)
    (h : (l.map Alias.name).Nodup) :
    alias_remove l name = l.filter (fun a => decide (a.name ≠ name)) := by
  induction l with
  | nil => simp [alias_remove]
  | cons a l ih =>
    rw [List.map_cons, List.nodup_cons] at h
    rw [alias_remove_cons]
    by_cases ha : a.name = name
    · rw [if_pos ha, List.filter_cons_of_neg (by simpa using ha)]
      symm
      rw [List.filter_eq_self]
      intro b hb
      have : b.name ≠ a.name := fun hba => h.1 (hba ▸ List.mem_map_of_mem Alias.name hb)
      simpa [← ha] using this
    · rw [if_neg ha, List.filter_cons_of_pos (by simpa using ha), ih h.2]

theorem alias_query_append_of_not_mem (l : List Alias) (name command : CStr)
    (h : ∀ b ∈ l, b.name ≠ name) :
    alias_query (l ++ [⟨name, command⟩]) name = some command := by
  induction l with
  | nil => simp [alias_query]
  | cons a l ih =>
    rw [List.cons_append, alias_query, if_neg (h a (List.mem_cons_self a l)),
      ih (fun b hb => h b (List.mem_cons_of_mem a hb))]

theorem alias_add_nodup (l : List Alias) (name command : CStr)
    (h : (l.map Alias.name).Nodup) : ((alias_add l name command).map Alias.name).Nodup := by
  rw [alias_add_eq, alias_remove_eq_filter l name h, List.map_append, List.nodup_append]
  refine ⟨h.sublist ((List.filter_sublist l).map Alias.name), by simp, ?_⟩
  intro x hx hx2
  simp only [List.map_cons, List.map_nil, List.mem_singleton] at hx2
  rw [List.mem_map] at hx
  obtain ⟨b, hb, rfl⟩ := hx
  rw [List.mem_filter] at hb
  simpa [hx2] using hb.2

/-- C1: starting from the empty list, after any finite sequence of `alias_add`,
`alias_remove` and `alias_destroy` calls with arbitrary arguments, no two nodes of the
alias list carry the same name. -/
theorem alias_names_unique (ops : List AliasOp) :
    ((ops.foldl AliasOp.apply []).map Alias.name).Nodup := by
  suffices H : ∀ (l : List Alias), (l.map Alias.name).Nodup →
      ((ops.foldl AliasOp.apply l).map Alias.name).Nodup from H [] (by simp)
  induction ops with
  | nil => intro l hl; simpa using hl
  | cons op ops ih =>
    intro l hl
    rw [List.foldl_cons]
    apply ih
    cases op with
    | add name command => exact alias_add_nodup l name command hl
    | remove name => exact alias_remove_nodup l name hl
    | clear => simp [AliasOp.apply, alias_destroy]

/-- C2: on a list with unique names, `alias_add` returns the nodes whose name differs
from `name`, in their previous order, followed by one new node `(name, command)` as the
last element. -/
theorem alias_add_moves_to_end (l : List Alias) (name command : CStr)
    (h : (l.map Alias.name).Nodup) :
    alias_add l name command =
      l.filter (fun a => decide (a.name ≠ name)) ++ [⟨name, command⟩] := by
  rw [alias_add_eq, alias_remove_eq_filter l name h]

/-- Instance of C2: re-adding `a` to the list `a, b, c`. -/
theorem alias_add_moves_to_end_witness :
    ((([⟨"a".toList, "x".toList⟩, ⟨"b".toList, "y".toList⟩, ⟨"c".toList, "z".toList⟩] :
        List Alias).map Alias.name).Nodup) ∧
    alias_add [⟨"a".toList, "x".toList⟩, ⟨"b".toList, "y".toList⟩, ⟨"c".toList, "z".toList⟩]
        "a".toList "w".toList =
      [⟨"b".toList, "y".toList⟩, ⟨"c".toList, "z".toList⟩, ⟨"a".toList, "w".toList⟩] :=
  ⟨by decide, by
    rw [alias_add_moves_to_end _ _ _ (by decide)]
    decide⟩

/-- C4: `alias_remove` deletes the first node whose name equals `name` and keeps every
other node in its original order; when no node has that name the list is returned as it
was. -/
theorem alias_remove_first_match (l : List Alias) (name : CStr) :
    (∀ pre a post, l = pre ++ a :: post → (∀ b ∈ pre, b.name ≠ name) → a.name = name →
        alias_remove l name = pre ++ post) ∧
    ((∀ b ∈ l, b.name ≠ name) → alias_remove l name = l) := by
  refine ⟨?_, alias_remove_of_not_mem l name⟩
  rintro pre a post rfl hpre ha
  exact alias_remove_append pre post a name hpre ha

/-- Instance of C4: removing `b` from `a, b, b`, and removing the absent `c`. -/
theorem alias_remove_first_match_witness :
    alias_remove [⟨"a".toList, "x".toList⟩, ⟨"b".toList, "y".toList⟩, ⟨"b".toList, "z".toList⟩]
        "b".toList = [⟨"a".toList, "x".toList⟩, ⟨"b".toList, "z".toList⟩] ∧
    alias_remove [⟨"a".toList, "x".toList⟩, ⟨"b".toList, "y".toList⟩] "c".toList =
      [⟨"a".toList, "x".toList⟩, ⟨"b".toList, "y".toList⟩] :=
  ⟨(alias_remove_first_match _ "b".toList).1 [⟨"a".toList, "x".toList⟩] ⟨"b".toList, "y".toList⟩
      [⟨"b".toList, "z".toList⟩] rfl (by decide) rfl,
   (alias_remove_first_match _ "c".toList).2 (by decide)⟩

/-! ## Byte-level lemmas and the tokenizer -/

theorem take_set_of_le {α : Type} (l : List α) (p e : Nat) (a : α) (h : p ≤ e) :
    (l.set e a).take p = l.take p := by
  rw [List.set_take, List.set_eq_of_length_le]
  exact le_trans (List.length_take_le p l) h

theorem strtok_take (buf : CStr) (p : Nat) (delim : CStr) :
    (strtok buf p delim).buf.take p = buf.take p ∧ p ≤ (strtok buf p delim).save := by
  unfold strtok
  dsimp only
  split
  · exact ⟨rfl, Nat.le_add_right _ _⟩
  · split
    · exact ⟨rfl, le_trans (Nat.le_add_right _ _) (Nat.le_add_right _ _)⟩
    · refine ⟨take_set_of_le _ _ _ _ (le_trans (Nat.le_add_right _ _) (Nat.le_add_right _ _)), ?_⟩
      exact le_trans (le_trans (Nat.le_add_right _ _) (Nat.le_add_right _ _)) (Nat.le_succ _)

theorem tokenize_loop_take (n : Nat) (st : Strtok) (args : List Nat) :
    (tokenize_loop n st args).1.take st.save = st.buf.take st.save := by
  induction n generalizing st args with
  | zero => rfl
  | succ n ih =>
    unfold tokenize_loop
    split
    · rfl
    · next t ht =>
      have h1 := ih (strtok st.buf st.save DELIM) (args ++ [t])
      have h2 := strtok_take st.buf st.save DELIM
      have h3 := congrArg (List.take st.save) h1
      rw [List.take_take, List.take_take, min_eq_left h2.2] at h3
      rw [h3, h2.1]

theorem tokenize_loop_args (n : Nat) (st : Strtok) (args : List Nat) :
    ∃ more, (tokenize_loop n st args).2 = args ++ more := by
  induction n generalizing st args with
  | zero => exact ⟨[], by simp [tokenize_loop]⟩
  | succ n ih =>
    unfold tokenize_loop
    split
    · exact ⟨[], by simp⟩
    · next t ht =>
      obtain ⟨more, hm⟩ := ih (strtok st.buf st.save DELIM) (args ++ [t])
      exact ⟨t :: more, by simp [hm]⟩

theorem takeWhile_append_stop (p : Char → Bool) (pre post : CStr) (x : Char)
    (hpre : ∀ c ∈ pre, p c = true) (hx : p x = false) :
    (pre ++ x :: post).takeWhile p = pre := by
  induction pre with
  | nil => simp [hx]
  | cons a pre ih =>
    simp [hpre a (List.mem_cons_self a pre), ih (fun c hc => hpre c (List.mem_cons_of_mem a hc))]

theorem byteAt_append_length (pre post : CStr) (x : Char) :
    byteAt (pre ++ x :: post) pre.length = x := by
  induction pre with
  | nil => rfl
  | cons a pre ih => simpa [byteAt] using ih

theorem set_append_length (pre post : CStr) (x y : Char) :
    (pre ++ x :: post).set pre.length y = pre ++ y :: post := by
  induction pre with
  | nil => rfl
  | cons a pre ih => simp [ih]

theorem takeWhile_ne_NUL_append (s post : CStr) (h : NUL ∉ s) :
    (s ++ NUL :: post).takeWhile (fun c => c != NUL) = s :=
  takeWhile_append_stop _ s post NUL (fun c hc => by
    have : c ≠ NUL := fun e => h (e ▸ hc)
    simpa using this) (by simp)

/-- First call of `strtok` on a line that starts with a token. -/
theorem strtok_first (tok rest : CStr) (d : Char) (hne : tok ≠ [])
    (htok : ∀ c ∈ tok, c ≠ NUL ∧ c ∉ DELIM) (hd : d ∈ DELIM) :
    strtok (tok ++ d :: rest) 0 DELIM =
      ⟨tok ++ NUL :: rest, tok.length + 1, some 0⟩ := by
  obtain ⟨t0, tt, rfl⟩ := List.exists_cons_of_ne_nil hne
  have ht0 := htok t0 (List.mem_cons_self t0 tt)
  have hdn : d ≠ NUL := by
    intro e; subst e; revert hd; decide
  unfold strtok
  have h1 : ((t0 :: tt ++ d :: rest).drop 0).takeWhile (fun c => decide (c ≠ NUL ∧ c ∈ DELIM)) = [] := by
    simp [ht0.2]
  have h2 : ((t0 :: tt ++ d :: rest).drop 0).takeWhile (fun c => decide (c ≠ NUL ∧ c ∉ DELIM))
      = t0 :: tt := by
    rw [List.drop_zero]
    exact takeWhile_append_stop _ (t0 :: tt) rest d (fun c hc => by simpa using htok c hc) (by simp [hd])
  simp only [h1, List.length_nil, Nat.add_zero]
  rw [if_neg (by simpa [byteAt] using ht0.1)]
  simp only [h2, Nat.zero_add]
  rw [byteAt_append_length, if_neg hdn, set_append_length]

theorem tokenize_first (tok rest : CStr) (d : Char) (hne : tok ≠ [])
    (htok : ∀ c ∈ tok, c ≠ NUL ∧ c ∉ DELIM) (hd : d ∈ DELIM) :
    (∃ more, (tokenize (tok ++ d :: rest)).2 = tok :: more) ∧
    cstr (tokenize (tok ++ d :: rest)).1 0 = tok := by
  have hcs : cstr (tokenize (tok ++ d :: rest)).1 0 = tok := by
    unfold tokenize
    dsimp only
    rw [strtok_first tok rest d hne htok hd]
    have h := tokenize_loop_take (MAX_ARGS - 1) ⟨tok ++ NUL :: rest, tok.length + 1, some 0⟩ []
    dsimp only at h
    have h2 : (tok ++ NUL :: rest).take (tok.length + 1) = tok ++ [NUL] := by
      have : tok ++ NUL :: rest = (tok ++ [NUL]) ++ rest := by simp
      rw [this]; exact List.take_left' (by simp)
    rw [h2] at h
    have h3 := List.take_append_drop (tok.length + 1)
      (tokenize_loop (MAX_ARGS - 1) ⟨tok ++ NUL :: rest, tok.length + 1, some 0⟩ []).1
    rw [h] at h3
    rw [cstr, List.drop_zero, ← h3, List.append_assoc]
    exact takeWhile_ne_NUL_append tok _ (fun hm => (htok NUL hm).1 rfl)
  refine ⟨?_, hcs⟩
  have hargs : ∃ more, (tokenize_loop (MAX_ARGS - 1) (strtok (tok ++ d :: rest) 0 DELIM) []).2
      = 0 :: more := by
    rw [strtok_first tok rest d hne htok hd]
    show ∃ more, (tokenize_loop (8 + 1) _ []).2 = 0 :: more
    unfold tokenize_loop
    dsimp only
    obtain ⟨more, hm⟩ := tokenize_loop_args 8
      (strtok (tok ++ NUL :: rest) (tok.length + 1) DELIM) ([] ++ [0])
    exact ⟨more, by simpa using hm⟩
  obtain ⟨more, hm⟩ := hargs
  refine ⟨more.map (cstr (tokenize (tok ++ d :: rest)).1), ?_⟩
  have h4 : (tokenize (tok ++ d :: rest)).2 =
      List.map (cstr (tokenize (tok ++ d :: rest)).1) (0 :: more) := by
    rw [← hm]; rfl
  rw [h4, List.map_cons, hcs]

theorem scan_for_append (c : Char) (hc : c ≠ NUL) (pre post : CStr)
    (h : ∀ x ∈ pre, x ≠ NUL ∧ x ≠ c) : scan_for c (pre ++ c :: post) = some pre.length := by
  induction pre with
  | nil => simp [scan_for, hc]
  | cons x pre ih =>
    have hx := h x (List.mem_cons_self x pre)
    simp [scan_for, hx.1, hx.2, ih (fun y hy => h y (List.mem_cons_of_mem x hy))]

theorem takeWhile_ne_NUL_self (s : CStr) (h : NUL ∉ s) :
    s.takeWhile (fun c => c != NUL) = s := by
  induction s with
  | nil => simp
  | cons a s ih =>
    have ha : a ≠ NUL := fun e => h (e ▸ List.mem_cons_self a s)
    simp [ha, ih (fun hm => h (List.mem_cons_of_mem a hm))]

/-- C3: on a list with unique names, for a name that is not empty, has no `=` and does
not start with `-`, and an expansion without a single quote, `execute_alias_command` on
the line `alias NAME='EXPANSION'` adds the pair, and `alias_query` for `NAME` on the
returned list yields exactly `EXPANSION`. -/
theorem alias_define_then_query (reg : List Alias) (name exp : CStr)
    (hreg : (reg.map Alias.name).Nodup)
    (hne : name ≠ []) (heq : '=' ∉ name) (hdash : name.head? ≠ some '-') (hnul : NUL ∉ name)
    (hq : '\'' ∉ exp) (hnul2 : NUL ∉ exp) :
    execute_alias_command ("alias ".toList ++ name ++ "='".toList ++ exp ++ "'".toList) reg
      = some (alias_add reg name exp, []) ∧
    alias_query (alias_add reg name exp) name = some exp := by
  constructor
  · obtain ⟨n0, nt, rfl⟩ := List.exists_cons_of_ne_nil hne
    have e1 : "alias ".toList = ['a', 'l', 'i', 'a', 's', ' '] := rfl
    have e2 : "='".toList = ['=', '\''] := rfl
    have e3 : "'".toList = ['\''] := rfl
    have e4 : "alias -".toList = ['a', 'l', 'i', 'a', 's', ' ', '-'] := rfl
    rw [e1, e2, e3]
    have hn0 : n0 ≠ NUL := fun e => hnul (e ▸ List.mem_cons_self n0 nt)
    have hn0d : n0 ≠ '-' := by simpa using hdash
    have hnt : NUL ∉ nt := fun hm => hnul (List.mem_cons_of_mem n0 hm)
    have hnteq : '=' ∉ nt := fun hm => heq (List.mem_cons_of_mem n0 hm)
    have hnu : NUL = Char.ofNat 0 := rfl
    have hq0 : ('\'' : Char) ≠ NUL := by decide
    have hE0 : ('=' : Char) ≠ NUL := by decide
    set P : CStr := 'a' :: 'l' :: 'i' :: 'a' :: 's' :: ' ' :: n0 :: nt with hP
    have hPlen : P.length = 7 + nt.length := by simp [hP]; omega
    have hPnul : NUL ∉ P := by
      simp only [hP, List.mem_cons, not_or]
      exact ⟨by decide, by decide, by decide, by decide, by decide, by decide, Ne.symm hn0, hnt⟩
    have hcmd : ['a', 'l', 'i', 'a', 's', ' '] ++ n0 :: nt ++ ['=', '\''] ++ exp ++ ['\'']
        = P ++ '=' :: ('\'' :: (exp ++ ['\''])) := by simp [hP]
    rw [hcmd]
    have hall : NUL ∉ P ++ '=' :: ('\'' :: (exp ++ ['\''])) := by
      simp only [List.mem_append, List.mem_cons, List.mem_singleton, List.not_mem_nil, not_or]
      exact ⟨hPnul, by decide, by decide, hnul2, by decide, not_false⟩
    have hcs : cstr (P ++ '=' :: ('\'' :: (exp ++ ['\'']))) 0 = P ++ '=' :: ('\'' :: (exp ++ ['\''])) := by
      simp only [cstr, List.drop_zero]; exact takeWhile_ne_NUL_self _ hall
    have h1 : strncmp_eq (P ++ '=' :: ('\'' :: (exp ++ ['\'']))) "alias -".toList 7 = false := by
      simp only [strncmp_eq, hcs, e4, hP]
      simp [hn0d]
    have h2 : ¬ strlen (P ++ '=' :: ('\'' :: (exp ++ ['\'']))) < 5 := by
      simp only [strlen, hcs]; simp [hP]
    have h3 : byteAt (P ++ '=' :: ('\'' :: (exp ++ ['\'']))) 5 ≠ NUL := by
      simp only [byteAt, hP]; simp; decide
    have h4 : ¬ strlen (P ++ '=' :: ('\'' :: (exp ++ ['\'']))) < 7 := by
      simp only [strlen, hcs]; simp [hP]
    have h5 : (P ++ '=' :: ('\'' :: (exp ++ ['\'']))).drop 7 = nt ++ '=' :: ('\'' :: (exp ++ ['\''])) := by
      simp [hP]
    have h6 : scan_for '=' (nt ++ '=' :: ('\'' :: (exp ++ ['\'']))) = some nt.length :=
      scan_for_append '=' hE0 nt _ (fun x hx => ⟨fun e => hnt (e ▸ hx), fun e => hnteq (e ▸ hx)⟩)
    have h7 : (P ++ '=' :: ('\'' :: (exp ++ ['\'']))).set (7 + nt.length) NUL
        = P ++ NUL :: ('\'' :: (exp ++ ['\''])) := by
      rw [← hPlen]; exact set_append_length _ _ _ _
    have h8 : byteAt (P ++ NUL :: ('\'' :: (exp ++ ['\'']))) (7 + nt.length + 1) = '\'' := by
      have : P ++ NUL :: ('\'' :: (exp ++ ['\''])) = (P ++ [NUL]) ++ '\'' :: (exp ++ ['\'']) := by simp
      have hl : 7 + nt.length + 1 = (P ++ [NUL]).length := by simp [hPlen]
      rw [this, hl]; exact byteAt_append_length _ _ _
    have h9 : (P ++ NUL :: ('\'' :: (exp ++ ['\'']))).drop (7 + nt.length + 2) = exp ++ ['\''] := by
      rw [← hPlen]
      have : P ++ NUL :: ('\'' :: (exp ++ ['\''])) = (P ++ [NUL, '\'']) ++ (exp ++ ['\'']) := by simp
      rw [this]
      exact List.drop_left' (by simp)
    have h10 : scan_for '\'' (exp ++ ['\'']) = some exp.length :=
      scan_for_append '\'' hq0 exp [] (fun x hx => ⟨fun e => hnul2 (e ▸ hx), fun e => hq (e ▸ hx)⟩)
    have h11 : (P ++ NUL :: ('\'' :: (exp ++ ['\'']))).set (7 + nt.length + 2 + exp.length) NUL
        = (P ++ NUL :: '\'' :: exp) ++ [NUL] := by
      have : P ++ NUL :: ('\'' :: (exp ++ ['\''])) = (P ++ NUL :: '\'' :: exp) ++ '\'' :: [] := by simp
      rw [this]
      have hl : 7 + nt.length + 2 + exp.length = (P ++ NUL :: '\'' :: exp).length := by
        simp [hPlen]; omega
      rw [hl]; exact set_append_length _ _ _ _
    have h12 : cstr ((P ++ NUL :: '\'' :: exp) ++ [NUL]) 6 = n0 :: nt := by
      simp only [cstr, hP]
      simp only [List.cons_append, List.drop_succ_cons, List.drop_zero]
      have := takeWhile_ne_NUL_append (n0 :: nt) ('\'' :: exp ++ [NUL]) hnul
      simpa using this
    have h13 : cstr ((P ++ NUL :: '\'' :: exp) ++ [NUL]) (7 + nt.length + 2) = exp := by
      rw [← hPlen]
      have : (P ++ NUL :: '\'' :: exp) ++ [NUL] = (P ++ [NUL, '\'']) ++ (exp ++ [NUL]) := by simp
      rw [this, cstr, List.drop_left' (by simp)]
      exact takeWhile_ne_NUL_append exp [] hnul2
    unfold execute_alias_command
    rw [h1]
    simp only [Bool.false_eq_true, if_false, h2, h3, h4, ne_eq, not_false_eq_true, if_true, h5, h6, h7,
      h8, h9, h10, h11, h12, h13]
  · rw [alias_add_eq]
    apply alias_query_append_of_not_mem
    intro b hb hbn
    have := alias_remove_eq_filter reg name hreg
    rw [this, List.mem_filter] at hb
    simpa [hbn] using hb.2

/-- Instance of C3: `alias foo='echo hi'` on a list that already defines `foo`. -/
theorem alias_define_then_query_witness :
    execute_alias_command
        ("alias ".toList ++ "foo".toList ++ "='".toList ++ "echo hi".toList ++ "'".toList)
        [⟨"foo".toList, "ls".toList⟩, ⟨"bar".toList, "pwd".toList⟩]
      = some (alias_add [⟨"foo".toList, "ls".toList⟩, ⟨"bar".toList, "pwd".toList⟩]
          "foo".toList "echo hi".toList, []) ∧
    alias_query (alias_add [⟨"foo".toList, "ls".toList⟩, ⟨"bar".toList, "pwd".toList⟩]
        "foo".toList "echo hi".toList) "foo".toList = some "echo hi".toList :=
  alias_define_then_query _ "foo".toList "echo hi".toList (by decide) (by decide) (by decide)
    (by decide) (by decide) (by decide) (by decide)

/-! ## The interactive loop -/

/-- C5 (amended): when the line starts with its first token, that token is none of
`cd`, `exit`, `path`, `myhistory`, `who`, does not begin with `alias`, and is the name of
an alias, the only effect of the iteration besides recording the line in the history is
one `system` call on the expansion: the rest of the line is dropped and the expansion is
not looked up again. -/
theorem alias_expansion_replaces_line (w : World) (s : ShellState) (tok rest exp : CStr)
    (d : Char) (hne : tok ≠ []) (htok : ∀ c ∈ tok, c ≠ NUL ∧ c ∉ DELIM) (hd : d ∈ DELIM)
    (hb : tok ∉ BUILTIN_NAMES) (ha : tok.take 5 ≠ "alias".toList)
    (hq : alias_query s.alias_ptr tok = some exp) :
    interactive_step w s (tok ++ d :: rest) =
      Outcome.next (record_history s (tok ++ d :: rest)) [Event.system exp] := by
  obtain ⟨⟨more, hargs⟩, hcs⟩ := tokenize_first tok rest d hne htok hd
  simp only [BUILTIN_NAMES, List.mem_cons, List.mem_singleton, List.not_mem_nil, not_or] at hb
  obtain ⟨h1, h2, h3, h4, h5, -⟩ := hb
  have h6 : tok ≠ "alias".toList := fun e => ha (by rw [e]; rfl)
  have h7 : (record_history s (tok ++ d :: rest)).alias_ptr = s.alias_ptr := by
    unfold record_history; split
    · split <;> rfl
    · rfl
  unfold interactive_step
  rw [hargs]
  unfold dispatch
  simp only [h1, h2, h3, h4, h5, h6, if_false, false_and, strncmp_eq, hcs, ha, decide_False,
    Bool.false_eq_true, execute_other_command, h7, hq]

theorem shift_loop_eq {α : Type} (d : α) (h : List α) (k : Nat) (hk : k + 1 ≤ h.length) :
    (List.range' 1 k).foldl (fun h i => h.set (i - 1) (h.getD i d)) h
      = (h.drop 1).take k ++ h.drop k := by
  induction k with
  | zero => simp
  | succ k ih =>
    rw [List.range'_1_concat, List.foldl_append, ih (by omega)]
    simp only [List.foldl_cons, List.foldl_nil]
    apply List.ext_getElem?
    intro i
    have hA : ((h.drop 1).take k).length = k := by simp; omega
    simp only [List.getD_eq_getElem?_getD, List.getElem?_set, List.getElem?_append, hA,
      List.getElem?_take, List.getElem?_drop, List.length_append, List.length_drop,
      List.length_take]
    have hmin : (k + 1) ⊓ (h.length - 1) = k + 1 := min_eq_left (by omega)
    have e1 : 1 + k - 1 = k := by omega
    have e2 : k + (1 + k - k) = k + 1 := by omega
    have e3 : ¬ (1 + k < k) := by omega
    have e4 : k < k + (h.length - k) := by omega
    have e5 : h[k + 1]? = some (h[k + 1]) := List.getElem?_eq_getElem (by omega)
    rw [hmin, e1, e2, if_neg e3, if_pos e4, e5, Option.getD_some]
    by_cases h1 : k = i
    · subst h1
      rw [if_pos rfl, if_pos (by omega), if_pos (by omega), Nat.add_comm 1 k, e5]
    · rw [if_neg h1]
      by_cases h2 : i < k
      · rw [if_pos h2, if_pos h2, if_pos (by omega), if_pos (by omega)]
      · rw [if_neg h2, if_neg (by omega)]
        congr 1
        omega

theorem history_shift_set (h : List (Option CStr)) (x : Option CStr)
    (hl : h.length = MAX_HISTORY) :
    (history_shift h).set (MAX_HISTORY - 1) x = h.drop 1 ++ [x] := by
  have hl2 : h.length = 20 := hl
  unfold history_shift
  rw [shift_loop_eq none h (MAX_HISTORY - 1) (by rw [hl]; decide)]
  have h1 : (h.drop 1).take (MAX_HISTORY - 1) = h.drop 1 :=
    List.take_of_length_le (by simp [hl2, MAX_HISTORY])
  have h2 : ((h.drop 1)).length = MAX_HISTORY - 1 := by simp [hl2, MAX_HISTORY]
  rw [h1, ← h2, List.set_append_right _ _ (le_refl _), Nat.sub_self]
  congr 1
  have h3 : (h.drop (h.drop 1).length).length = 1 := by simp [hl2]
  match hd : h.drop (h.drop 1).length, h3 with
  | [y], _ => rfl

theorem cstr_zero_of_no_NUL (l : CStr) (h : NUL ∉ l) : cstr l 0 = l := by
  rw [cstr, List.drop_zero]
  exact takeWhile_ne_NUL_self l h

/-- What the history holds after a sequence of lines has been recorded. -/
theorem record_history_foldl (env_path : CStr) (lines : List CStr)
    (h : ∀ l ∈ lines, byteAt l 0 ≠ '\n' ∧ NUL ∉ l) :
    (lines.foldl record_history (ShellState.init env_path)).history.length = MAX_HISTORY ∧
    (lines.foldl record_history (ShellState.init env_path)).history_count
      = min lines.length MAX_HISTORY ∧
    (lines.foldl record_history (ShellState.init env_path)).history.take
        (min lines.length MAX_HISTORY)
      = (lines.drop (lines.length - min lines.length MAX_HISTORY)).map some := by
  induction lines using List.reverseRecOn with
  | nil => simp [ShellState.init, MAX_HISTORY]
  | append_singleton ls l ih =>
    obtain ⟨hlen, hcount, htake⟩ := ih (fun x hx => h x (List.mem_append_left _ hx))
    obtain ⟨hl1, hl2⟩ := h l (List.mem_append_right _ (List.mem_singleton_self l))
    rw [List.foldl_append, List.foldl_cons, List.foldl_nil]
    generalize List.foldl record_history (ShellState.init env_path) ls = s at hlen hcount htake
    unfold record_history
    rw [if_pos hl1, cstr_zero_of_no_NUL l hl2]
    by_cases hc : s.history_count < MAX_HISTORY
    · rw [if_pos hc]
      have hk : ls.length < MAX_HISTORY := by
        rw [hcount] at hc
        exact lt_of_not_le (fun hge => by rw [min_eq_right hge] at hc; exact lt_irrefl _ hc)
      have hc2 : s.history_count = ls.length := by rw [hcount, min_eq_left (le_of_lt hk)]
      rw [min_eq_left (le_of_lt hk), Nat.sub_self, List.drop_zero, ← hc2] at htake
      have hm : min (ls ++ [l]).length MAX_HISTORY = ls.length + 1 := by
        rw [List.length_append, List.length_singleton]; exact min_eq_left hk
      refine ⟨by simp [hlen], by simp only [hm, hc2], ?_⟩
      rw [hm, List.length_append, List.length_singleton, Nat.sub_self, List.drop_zero,
        List.map_append, ← htake]
      dsimp only
      rw [← hc2, List.take_succ]
      congr 1
      · exact take_set_of_le _ _ _ _ (le_refl _)
      · simp [List.getElem?_set, hc, hlen]
    · rw [if_neg hc]
      have hk : MAX_HISTORY ≤ ls.length := by
        rw [hcount] at hc
        exact le_of_not_lt (fun hlt => hc (by rw [min_eq_left (le_of_lt hlt)]; exact hlt))
      rw [min_eq_right hk] at htake hcount
      have hpos : 1 ≤ MAX_HISTORY := by decide
      have hH : s.history = (ls.drop (ls.length - MAX_HISTORY)).map some := by
        rw [← htake]; exact (List.take_of_length_le (le_of_eq hlen)).symm
      have hm : min (ls ++ [l]).length MAX_HISTORY = MAX_HISTORY := by
        rw [List.length_append, List.length_singleton]; exact min_eq_right (by omega)
      dsimp only
      rw [history_shift_set _ _ hlen, hm]
      have hlen2 : (s.history.drop 1 ++ [some l]).length = MAX_HISTORY := by
        simp [hlen, MAX_HISTORY]
      refine ⟨hlen2, hcount, ?_⟩
      rw [List.take_of_length_le (le_of_eq hlen2), List.length_append, List.length_singleton,
        List.drop_append_of_le_length (by omega), List.map_append, hH, ← List.map_drop,
        List.drop_drop]
      have e : ls.length - MAX_HISTORY + 1 = ls.length + 1 - MAX_HISTORY := by omega
      rw [e]
      rfl

theorem myhistory_list_eq (history : List (Option CStr)) (f : Nat → CStr) (n i : Nat)
    (h : ∀ j, j < n → history.getD (i + j) none = some (f (i + j)))
    (hf : ∀ j, j < n → NUL ∉ f (i + j)) :
    myhistory_list history n i =
      some ((List.range' i n).map
        (fun j => Event.stdout (Nat.toDigits 10 (j + 1) ++ [' '] ++ f j))) := by
  induction n generalizing i with
  | zero => rfl
  | succ n ih =>
    have h0 := h 0 (Nat.succ_pos n)
    have hf0 := hf 0 (Nat.succ_pos n)
    rw [Nat.add_zero] at h0 hf0
    unfold myhistory_list
    rw [h0]
    dsimp only
    rw [ih (i + 1) (fun j hj => by have := h (j + 1) (Nat.succ_lt_succ hj); rwa [Nat.add_assoc, Nat.add_comm 1 j])
      (fun j hj => by have := hf (j + 1) (Nat.succ_lt_succ hj); rwa [Nat.add_assoc, Nat.add_comm 1 j]),
      cstr_zero_of_no_NUL _ hf0]
    rfl

/-- C7: after `k` lines, none starting with a newline, have been recorded in the empty
history, the count is `min k 20`, slot `j` holds line number `k - min k 20 + j + 1`, and
`myhistory` prints these lines numbered from 1 to `min k 20`. -/
theorem history_keeps_last_lines (env_path : CStr) (lines : List CStr)
    (h : ∀ l ∈ lines, byteAt l 0 ≠ '\n' ∧ NUL ∉ l) :
    (lines.foldl record_history (ShellState.init env_path)).history_count
      = min lines.length MAX_HISTORY ∧
    (∀ j, j < min lines.length MAX_HISTORY →
      (lines.foldl record_history (ShellState.init env_path)).history.getD j none
        = some (lines.getD (lines.length - min lines.length MAX_HISTORY + j) [])) ∧
    myhistory_builtin (lines.foldl record_history (ShellState.init env_path))
        ["myhistory".toList]
      = Outcome.next (lines.foldl record_history (ShellState.init env_path))
          ((List.range (min lines.length MAX_HISTORY)).map (fun j =>
            Event.stdout (Nat.toDigits 10 (j + 1) ++ [' '] ++
              lines.getD (lines.length - min lines.length MAX_HISTORY + j) []))) := by
  obtain ⟨hlen, hcount, htake⟩ := record_history_foldl env_path lines h
  generalize List.foldl record_history (ShellState.init env_path) lines = s at hlen hcount htake
  have hslot : ∀ j, j < min lines.length MAX_HISTORY →
      s.history.getD j none
        = some (lines.getD (lines.length - min lines.length MAX_HISTORY + j) []) := by
    intro j hj
    have h1 := congrArg (fun l => l[j]?) htake
    have hlt : lines.length - min lines.length MAX_HISTORY + j < lines.length := by
      have := min_le_left lines.length MAX_HISTORY
      omega
    simp only [List.getElem?_take, hj, if_true, List.getElem?_map, List.getElem?_drop,
      List.getElem?_eq_getElem hlt, Option.map_some'] at h1
    rw [List.getD_eq_getElem?_getD, h1, List.getD_eq_getElem?_getD,
      List.getElem?_eq_getElem hlt]
    rfl
  refine ⟨hcount, hslot, ?_⟩
  unfold myhistory_builtin
  simp only [List.get?]
  rw [hcount, myhistory_list_eq s.history
    (fun j => lines.getD (lines.length - min lines.length MAX_HISTORY + j) [])
    (min lines.length MAX_HISTORY) 0
    (fun j hj => by rw [Nat.zero_add]; exact hslot j hj)
    (fun j hj => by
      rw [Nat.zero_add]
      have hlt : lines.length - min lines.length MAX_HISTORY + j < lines.length := by
        have := min_le_left lines.length MAX_HISTORY
        omega
      show NUL ∉ lines.getD (lines.length - min lines.length MAX_HISTORY + j) []
      rw [List.getD_eq_getElem?_getD, List.getElem?_eq_getElem hlt]
      exact (h _ (List.getElem_mem _)).2)]
  rw [List.range_eq_range']

theorem path_builtin_count (s s1 : ShellState) (args : List CStr) (ev : List Event)
    (h : path_builtin s args = Outcome.next s1 ev) : s1.history_count = s.history_count := by
  unfold path_builtin at h
  split at h
  · cases h; rfl
  · split at h
    · split at h
      · cases h
      · split at h
        · cases h
        · cases h; rfl
    · split at h
      · split at h
        · cases h
        · split at h
          · split at h
            · cases h
            · cases h; rfl
          · cases h; rfl
      · cases h; rfl

theorem myhistory_builtin_count (s s1 : ShellState) (args : List CStr) (ev : List Event)
    (h : myhistory_builtin s args = Outcome.next s1 ev) :
    s1.history_count ≤ s.history_count := by
  unfold myhistory_builtin at h
  split at h
  · split at h
    · cases h
    · cases h; exact le_refl _
  · split at h
    · cases h; exact Nat.zero_le _
    · split at h
      · dsimp only at h
        split at h
        · cases h; exact le_refl _
        · split at h
          · cases h
          · cases h; exact le_refl _
      · cases h; exact le_refl _

theorem who_builtin_state (w : World) (s s1 : ShellState) (args : List CStr) (ev : List Event)
    (h : who_builtin w s args = Outcome.next s1 ev) : s1 = s := by
  unfold who_builtin at h
  repeat' split at h
  all_goals first | (cases h; rfl) | cases h

theorem main_alias_count (s s1 : ShellState) (line : CStr) (ev : List Event)
    (h : main_alias s line = Outcome.next s1 ev) : s1.history_count = s.history_count := by
  unfold main_alias at h
  dsimp only at h
  repeat' split at h
  all_goals first | (cases h; rfl) | cases h

theorem dispatch_count (w : World) (s s1 : ShellState) (line : CStr) (args : List CStr)
    (ev : List Event) (h : dispatch w s line args = Outcome.next s1 ev) :
    s1.history_count ≤ s.history_count := by
  unfold dispatch at h
  split at h
  · cases h
  · split at h
    · cases h; exact le_refl _
    · split at h
      · split at h
        · cases h
        · split at h
          · cases h
          · cases h; exact le_refl _
      · split at h
        · exact le_of_eq (path_builtin_count _ _ _ _ h)
        · split at h
          · exact myhistory_builtin_count _ _ _ _ h
          · split at h
            · exact le_of_eq (congrArg _ (who_builtin_state _ _ _ _ _ h))
            · split at h
              · split at h
                · cases h
                · cases h; exact le_refl _
              · split at h
                · exact le_of_eq (main_alias_count _ _ _ _ h)
                · split at h
                  · cases h; exact le_refl _
                  · split at h
                    · cases h
                    · cases h; exact le_refl _

theorem record_history_count (s : ShellState) (line : CStr)
    (h : s.history_count ≤ MAX_HISTORY) : (record_history s line).history_count ≤ MAX_HISTORY := by
  unfold record_history
  split
  · split
    · next hlt => exact hlt
    · exact h
  · exact h

theorem interactive_step_count (w : World) (s s1 : ShellState) (raw : CStr) (ev : List Event)
    (hs : s.history_count ≤ MAX_HISTORY)
    (h : interactive_step w s raw = Outcome.next s1 ev) : s1.history_count ≤ MAX_HISTORY :=
  le_trans (dispatch_count _ _ _ _ _ _ h) (record_history_count s raw hs)

theorem run_count (inputs : List (World × CStr)) (s s1 : ShellState) (ev : List Event)
    (hs : s.history_count ≤ MAX_HISTORY)
    (h : run s inputs = Outcome.next s1 ev) : s1.history_count ≤ MAX_HISTORY := by
  induction inputs generalizing s ev with
  | nil => simp only [run] at h; cases h; exact hs
  | cons x rest ih =>
    obtain ⟨w, raw⟩ := x
    unfold run at h
    split at h
    · next s2 ev2 hstep =>
      split at h
      · next s3 ev3 hrun =>
        cases h
        exact ih s2 ev3 (interactive_step_count w s s2 raw ev2 hs hstep) hrun
      · cases h
      · cases h
    · cases h
    · cases h

/-- C8: in every state the interactive loop reaches from its initial state, whatever
lines are entered, `history_count` lies between 0 and `MAX_HISTORY`. -/
theorem history_count_bounded (env_path : CStr) (inputs : List (World × CStr))
    (s : ShellState) (ev : List Event)
    (h : run (ShellState.init env_path) inputs = Outcome.next s ev) :
    0 ≤ s.history_count ∧ s.history_count ≤ MAX_HISTORY :=
  ⟨Nat.zero_le _, run_count inputs _ s ev (Nat.zero_le _) h⟩

/-! ## Evaluations at concrete inputs -/

/-- Instance of C5 (amended): `ll /tmp` with `ll` an alias for `ls -l`, `ls` being an
alias as well. -/
theorem alias_expansion_replaces_line_witness :
    interactive_step w0
        { ShellState.init "/bin".toList with
          alias_ptr := [⟨"ll".toList, "ls -l".toList⟩, ⟨"ls".toList, "date".toList⟩] }
        ("ll".toList ++ ' ' :: "/tmp\n".toList) =
      Outcome.next
        (record_history
          { ShellState.init "/bin".toList with
            alias_ptr := [⟨"ll".toList, "ls -l".toList⟩, ⟨"ls".toList, "date".toList⟩] }
          ("ll".toList ++ ' ' :: "/tmp\n".toList))
        [Event.system "ls -l".toList] :=
  alias_expansion_replaces_line w0 _ "ll".toList "/tmp\n".toList "ls -l".toList ' '
    (by decide) (by decide) (by decide) (by decide) (by decide) (by decide)

/-- C5 fails as stated: with `foo` defined as an alias for `date`, the line ` foo`
(a leading blank) has first token `foo`, yet `system` is called on ` foo`; and with
`aliasx` defined as an alias, the line `aliasx` is taken by the `alias` branch, which
prints the usage text and runs nothing. -/
theorem alias_expansion_counterexample :
    (tokenize " foo\n".toList).2 = ["foo".toList] ∧
    "foo".toList ∉ "alias".toList :: BUILTIN_NAMES ∧
    (run (ShellState.init "/bin".toList) [(w0, "alias foo=date\n".toList)]).state.map
        (fun s => alias_query s.alias_ptr "foo".toList) = some (some "date".toList) ∧
    (run (ShellState.init "/bin".toList)
        [(w0, "alias foo=date\n".toList), (w0, " foo\n".toList)]).events
      = some [Event.system " foo".toList] ∧
    (run (ShellState.init "/bin".toList)
        [(w0, "alias foo=date\n".toList), (w0, " foo\n".toList)]).events
      ≠ some [Event.system "date".toList] ∧
    (tokenize "aliasx\n".toList).2 = ["aliasx".toList] ∧
    "aliasx".toList ∉ "alias".toList :: BUILTIN_NAMES ∧
    (run (ShellState.init "/bin".toList) [(w0, "alias aliasx=date\n".toList)]).state.map
        (fun s => alias_query s.alias_ptr "aliasx".toList) = some (some "date".toList) ∧
    (run (ShellState.init "/bin".toList)
        [(w0, "alias aliasx=date\n".toList), (w0, "aliasx\n".toList)]).events
      = some [Event.stdout (ALIAS_USAGE ++ ['\n'])] ∧
    (run (ShellState.init "/bin".toList)
        [(w0, "alias aliasx=date\n".toList), (w0, "aliasx\n".toList)]).events
      ≠ some [Event.system "date".toList] := by
  refine ⟨by decide, by decide, by decide, by decide, by decide, by decide, by decide,
    by decide, by rfl, by decide⟩

/-- C6: on the line `ls -l`, whose first token is neither a built-in nor an alias, the
loop calls `system("ls")`: the tokenizer has cut `line` after the first token. -/
theorem unaliased_line_loses_arguments :
    (tokenize "ls -l\n".toList).2 = ["ls".toList, "-l".toList] ∧
    interactive_step w0 (ShellState.init "/bin".toList) "ls -l\n".toList =
      Outcome.next (record_history (ShellState.init "/bin".toList) "ls -l\n".toList)
        [Event.system "ls".toList] := by
  refine ⟨by decide, by decide⟩

/-- C9: `myhistory -e N` neither picks the N-th entry nor runs it.  After `ls` and
`pwd`, `myhistory -e 2` reads slot `(3 + 2 - 1) % 20 = 4`, which was never assigned.
After the ten lines `c0` .. `c9`, `myhistory -e 10` produces no event beyond those of
the ten lines themselves, and it tokenizes slot 0 (`c0`) while slot 9 (`c9`, the tenth
entry) is left alone. -/
theorem myhistory_e_does_not_replay :
    run (ShellState.init "/bin".toList)
        [(w0, "ls\n".toList), (w0, "pwd\n".toList), (w0, "myhistory -e 2\n".toList)]
      = Outcome.undefined ∧
    (run (ShellState.init "/bin".toList) ten_lines).events
      = some ((List.range 10).map (fun i => Event.system ('c' :: Nat.toDigits 10 i))) ∧
    (run (ShellState.init "/bin".toList)
        (ten_lines ++ [(w0, "myhistory -e 10\n".toList)])).events
      = some ((List.range 10).map (fun i => Event.system ('c' :: Nat.toDigits 10 i))) ∧
    (run (ShellState.init "/bin".toList)
        (ten_lines ++ [(w0, "myhistory -e 10\n".toList)])).state.map
        (fun s => (s.history_count, s.history.getD 0 none, s.history.getD 9 none))
      = some (11, some ("c0".toList ++ [NUL]), some "c9\n".toList) := by
  refine ⟨by decide, by decide, by decide, by decide⟩

/-- Instance of C8: after the 21 lines `c0` .. `c20` the loop is in the state that
recording them yields, with `history_count = 20`. -/
theorem history_count_bounded_witness :
    run (ShellState.init "/bin".toList) inputs21
      = Outcome.next (lines21.foldl record_history (ShellState.init "/bin".toList))
          ((List.range 21).map (fun i => Event.system ('c' :: Nat.toDigits 10 i))) ∧
    (lines21.foldl record_history (ShellState.init "/bin".toList)).history_count = 20 ∧
    (0 ≤ (lines21.foldl record_history (ShellState.init "/bin".toList)).history_count ∧
    (lines21.foldl record_history (ShellState.init "/bin".toList)).history_count
      ≤ MAX_HISTORY) :=
  ⟨by decide, by decide, history_count_bounded "/bin".toList inputs21
    (lines21.foldl record_history (ShellState.init "/bin".toList))
    ((List.range 21).map (fun i => Event.system ('c' :: Nat.toDigits 10 i))) (by decide)⟩

/-- Instance of C7: after the 21 lines `c0` .. `c20` the history holds `c1` .. `c20`,
listed with the numbers 1 to 20. -/
theorem history_keeps_last_lines_witness :
    (lines21.foldl record_history (ShellState.init "/bin".toList)).history_count = 20 ∧
    (lines21.foldl record_history (ShellState.init "/bin".toList)).history.getD 0 none
      = some "c1\n".toList ∧
    (lines21.foldl record_history (ShellState.init "/bin".toList)).history.getD 19 none
      = some "c20\n".toList ∧
    (myhistory_builtin (lines21.foldl record_history (ShellState.init "/bin".toList))
        ["myhistory".toList]).events.map (fun ev => (ev.head?, ev.getLast?))
      = some (some (Event.stdout "1 c1\n".toList), some (Event.stdout "20 c20\n".toList)) := by
  have h := history_keeps_last_lines "/bin".toList lines21 (by decide)
  refine ⟨h.1, h.2.1 0 (by decide), h.2.1 19 (by decide), ?_⟩
  rw [h.2.2]
  decide

/-! ## The tokenizer against its specification -/

theorem runs_aux_cur (delim cur r : CStr) (hcur : cur ≠ []) :
    runs_aux delim cur r =
      (cur ++ r.takeWhile (fun c => decide (c ∉ delim))) ::
        runs_aux delim [] (r.dropWhile (fun c => decide (c ∉ delim))) := by
  induction r generalizing cur with
  | nil => simp [runs_aux, hcur]
  | cons c cs ih =>
    by_cases hc : c ∈ delim
    · simp [runs_aux, hc, hcur]
    · rw [runs_aux, if_neg hc, ih (cur ++ [c]) (by simp)]
      simp [hc]

theorem runs_aux_nil (delim r : CStr) :
    runs_aux delim [] r = runs_aux delim [] (r.dropWhile (fun c => decide (c ∈ delim))) := by
  induction r with
  | nil => rfl
  | cons c cs ih =>
    by_cases hc : c ∈ delim
    · rw [runs_aux, if_pos hc, if_pos rfl, ih]
      simp [hc]
    · simp [hc]

theorem maximal_runs_unfold (delim r : CStr) :
    maximal_runs delim r =
      if r.dropWhile (fun c => decide (c ∈ delim)) = [] then []
      else
        (r.dropWhile (fun c => decide (c ∈ delim))).takeWhile (fun c => decide (c ∉ delim)) ::
          maximal_runs delim
            ((r.dropWhile (fun c => decide (c ∈ delim))).dropWhile
              (fun c => decide (c ∉ delim))) := by
  unfold maximal_runs
  rw [runs_aux_nil]
  generalize hr1 : r.dropWhile (fun c => decide (c ∈ delim)) = r1
  cases r1 with
  | nil => simp [runs_aux]
  | cons c cs =>
    have hc : c ∉ delim := by
      have := List.head_dropWhile_not (fun c => decide (c ∈ delim)) r (by rw [hr1]; simp)
      simpa [hr1] using this
    rw [if_neg (by simp), runs_aux, if_neg hc, runs_aux_cur delim ([] ++ [c]) cs (by simp)]
    simp [hc]

theorem take_maximal_runs (delim : CStr) (n : Nat) (r : CStr) :
    (maximal_runs delim r).take n = toks delim n r := by
  induction n generalizing r with
  | zero => simp [toks]
  | succ n ih =>
    rw [maximal_runs_unfold, toks]
    split
    · simp
    · rw [List.take_succ_cons, ih]

theorem takeWhile_eq_of_forall (p q : Char → Bool) (l : CStr) (h : ∀ c ∈ l, p c = q c) :
    l.takeWhile p = l.takeWhile q := by
  induction l with
  | nil => rfl
  | cons a l ih =>
    rw [List.takeWhile_cons, List.takeWhile_cons, h a (List.mem_cons_self a l),
      ih (fun c hc => h c (List.mem_cons_of_mem a hc))]

theorem byteAt_append_nil (pre : CStr) : byteAt pre pre.length = NUL := by
  simp [byteAt]

/-- One `strtok` call on a buffer `pre ++ r` whose unread part `r` holds no NUL. -/
theorem strtok_spec (pre r : CStr) (hr : NUL ∉ r) :
    (r.dropWhile (fun c => decide (c ∈ DELIM)) = [] →
      strtok (pre ++ r) pre.length DELIM = ⟨pre ++ r, (pre ++ r).length, none⟩) ∧
    (∀ ds tok, r = ds ++ tok → ds = r.takeWhile (fun c => decide (c ∈ DELIM)) → tok ≠ [] →
        (∀ c ∈ tok, c ∉ DELIM) →
      strtok (pre ++ r) pre.length DELIM = ⟨pre ++ r, (pre ++ r).length, some (pre ++ ds).length⟩) ∧
    (∀ ds tok d r3, r = ds ++ tok ++ d :: r3 → ds = r.takeWhile (fun c => decide (c ∈ DELIM)) →
        tok ≠ [] → (∀ c ∈ tok, c ∉ DELIM) → d ∈ DELIM →
      strtok (pre ++ r) pre.length DELIM =
        ⟨pre ++ ds ++ tok ++ NUL :: r3, (pre ++ ds ++ tok).length + 1, some (pre ++ ds).length⟩) := by
  have hd1 : (r.takeWhile (fun c => decide (c ≠ NUL ∧ c ∈ DELIM)))
      = r.takeWhile (fun c => decide (c ∈ DELIM)) :=
    takeWhile_eq_of_forall _ _ r (fun c hc => by
      have : c ≠ NUL := fun e => hr (e ▸ hc)
      simp [this])
  refine ⟨?_, ?_, ?_⟩
  · intro h
    have hall : r.takeWhile (fun c => decide (c ∈ DELIM)) = r := by
      have := List.takeWhile_append_dropWhile (fun c => decide (c ∈ DELIM)) r
      rw [h, List.append_nil] at this
      exact this
    unfold strtok
    simp only [List.drop_left, hd1, hall]
    rw [if_pos (by rw [← List.length_append]; exact byteAt_append_nil _)]
    simp
  · intro ds tok hrt hds hne htok
    obtain ⟨t0, tt, rfl⟩ := List.exists_cons_of_ne_nil hne
    have ht0 : t0 ≠ NUL := fun e => hr (by rw [hrt, e]; simp)
    have htk : (t0 :: tt).takeWhile (fun c => decide (c ≠ NUL ∧ c ∉ DELIM)) = t0 :: tt := by
      rw [List.takeWhile_eq_self_iff]
      intro c hc
      have : c ≠ NUL := fun e => hr (by rw [hrt, ← e]; exact List.mem_append_right _ hc)
      simp [this, htok c hc]
    unfold strtok
    simp only [List.drop_left, hd1, ← hds]
    have e1 : pre ++ r = (pre ++ ds) ++ t0 :: tt := by rw [hrt, List.append_assoc]
    have e2 : pre.length + ds.length = (pre ++ ds).length := by simp
    rw [e2, e1, byteAt_append_length, if_neg ht0, List.drop_left, htk,
      ← List.length_append, byteAt_append_nil, if_pos rfl]
  · intro ds tok d r3 hrt hds hne htok hd
    obtain ⟨t0, tt, rfl⟩ := List.exists_cons_of_ne_nil hne
    have ht0 : t0 ≠ NUL := fun e => hr (by rw [hrt, e]; simp)
    have hdn : d ≠ NUL := fun e => hr (by rw [hrt, e]; simp)
    have htk : (t0 :: tt ++ d :: r3).takeWhile (fun c => decide (c ≠ NUL ∧ c ∉ DELIM))
        = t0 :: tt :=
      takeWhile_append_stop _ (t0 :: tt) r3 d (fun c hc => by
        have : c ≠ NUL := fun e => hr (by
          rw [hrt, ← e]
          exact List.mem_append_left _ (List.mem_append_right _ hc))
        simp [this, htok c hc]) (by simp [hd])
    unfold strtok
    simp only [List.drop_left, hd1, ← hds]
    have e1 : pre ++ r = (pre ++ ds) ++ (t0 :: tt ++ d :: r3) := by
      rw [hrt]; simp
    have e2 : pre.length + ds.length = (pre ++ ds).length := by simp
    have e3 : (pre ++ ds) ++ (t0 :: tt ++ d :: r3) = (pre ++ ds ++ t0 :: tt) ++ d :: r3 := by simp
    rw [e2, e1, List.drop_left]
    have hb : byteAt ((pre ++ ds) ++ (t0 :: tt ++ d :: r3)) (pre ++ ds).length = t0 :=
      byteAt_append_length _ _ _
    rw [hb, if_neg ht0, htk, ← List.length_append, e3, byteAt_append_length, if_neg hdn,
      set_append_length]

theorem dropWhile_head_false (p : Char → Bool) (l : CStr) (d : Char) (r3 : CStr)
    (h : l.dropWhile p = d :: r3) : p d = false := by
  induction l with
  | nil => simp at h
  | cons a l ih =>
    rw [List.dropWhile_cons] at h
    split at h
    · exact ih h
    · next hp =>
      cases h
      simpa using hp

theorem toks_nil (delim : CStr) (n : Nat) : toks delim n [] = [] := by
  cases n <;> simp [toks]

theorem toks_cons_delim (delim : CStr) (n : Nat) (d : Char) (r : CStr) (hd : d ∈ delim) :
    toks delim n (d :: r) = toks delim n r := by
  cases n with
  | zero => rfl
  | succ n => simp [toks, hd]

theorem tokenize_loop_none (n : Nat) (buf : CStr) (save : Nat) (args : List Nat) :
    tokenize_loop n ⟨buf, save, none⟩ args = (buf, args) := by
  cases n <;> rfl

theorem strtok_buf_prefix (pre r : CStr) (delim : CStr) :
    ∃ X, (strtok (pre ++ r) pre.length delim).buf = pre ++ X := by
  have h := (strtok_take (pre ++ r) pre.length delim).1
  rw [List.take_left] at h
  refine ⟨(strtok (pre ++ r) pre.length delim).buf.drop pre.length, ?_⟩
  conv_lhs => rw [← List.take_append_drop pre.length (strtok (pre ++ r) pre.length delim).buf]
  rw [h]

theorem map_cstr_of_stable (pre X : CStr) (args : List Nat) (done : List CStr)
    (h : List.Forall₂ (fun t tok => ∀ Y, cstr (pre ++ Y) t = tok) args done) :
    args.map (cstr (pre ++ X)) = done := by
  induction h with
  | nil => rfl
  | cons h1 _ ih => rw [List.map_cons, h1 X, ih]

theorem cstr_append_left (A s post : CStr) (hs : NUL ∉ s) :
    cstr (A ++ s ++ NUL :: post) A.length = s := by
  rw [cstr, List.append_assoc, List.drop_left]
  exact takeWhile_ne_NUL_append s post hs

theorem cstr_append_end (A s : CStr) (hs : NUL ∉ s) : cstr (A ++ s) A.length = s := by
  rw [cstr, List.drop_left]
  exact takeWhile_ne_NUL_self s hs

/-- The tokenizer loop against the list-level tokenizer. -/
theorem tokenize_loop_spec (n : Nat) (pre r : CStr) (args : List Nat) (done : List CStr)
    (hr : NUL ∉ r)
    (hst : List.Forall₂ (fun t tok => ∀ Y, cstr (pre ++ Y) t = tok) args done) :
    (tokenize_loop n (strtok (pre ++ r) pre.length DELIM) args).2.map
        (cstr (tokenize_loop n (strtok (pre ++ r) pre.length DELIM) args).1)
      = done ++ toks DELIM n r := by
  induction n generalizing pre r args done with
  | zero =>
    obtain ⟨X, hX⟩ := strtok_buf_prefix pre r DELIM
    simp only [tokenize_loop, toks, List.append_nil, hX]
    exact map_cstr_of_stable pre X args done hst
  | succ n ih =>
    obtain ⟨h1, h2, h3⟩ := strtok_spec pre r hr
    have hsplit := List.takeWhile_append_dropWhile (fun c => decide (c ∈ DELIM)) r
    generalize hds : r.takeWhile (fun c => decide (c ∈ DELIM)) = ds at hsplit
    generalize hr1 : r.dropWhile (fun c => decide (c ∈ DELIM)) = r1 at hsplit
    cases r1 with
    | nil =>
      rw [h1 hr1, tokenize_loop_none, toks, if_pos hr1, List.append_nil]
      exact map_cstr_of_stable pre r args done hst
    | cons c cs =>
      have hc : c ∉ DELIM := by
        simpa using dropWhile_head_false _ _ _ _ hr1
      have hsplit2 := List.takeWhile_append_dropWhile (fun c => decide (c ∉ DELIM)) (c :: cs)
      generalize htk : (c :: cs).takeWhile (fun c => decide (c ∉ DELIM)) = tok at hsplit2
      generalize hr2 : (c :: cs).dropWhile (fun c => decide (c ∉ DELIM)) = r2 at hsplit2
      have htokne : tok ≠ [] := by
        rw [← htk]; simp [hc]
      have htokd : ∀ x ∈ tok, x ∉ DELIM := by
        intro x hx
        rw [← htk] at hx
        simpa using List.mem_takeWhile_imp hx
      have htoknul : NUL ∉ tok := fun hm => hr (by
        rw [← hsplit, ← hsplit2]
        exact List.mem_append_right _ (List.mem_append_left _ hm))
      rw [toks, if_neg (by rw [hr1]; simp), hr1, htk, hr2]
      cases r2 with
      | nil =>
        rw [List.append_nil] at hsplit2
        rw [h2 ds tok (by rw [← hsplit, hsplit2]) hds.symm htokne htokd]
        unfold tokenize_loop
        dsimp only
        have hnone := (strtok_spec (pre ++ r) [] (by simp)).1 rfl
        rw [List.append_nil] at hnone
        rw [hnone, tokenize_loop_none, toks_nil, List.map_append]
        have hrr : r = ds ++ tok := by rw [← hsplit, hsplit2]
        rw [map_cstr_of_stable pre r args done hst]
        congr 1
        rw [hrr, ← List.append_assoc, List.map_cons, List.map_nil,
          cstr_append_end (pre ++ ds) tok htoknul]
      | cons d r3 =>
        have hd : d ∈ DELIM := by
          simpa using dropWhile_head_false _ _ _ _ hr2
        have hrr : r = ds ++ tok ++ d :: r3 := by
          rw [← hsplit, ← hsplit2, List.append_assoc]
        rw [h3 ds tok d r3 hrr hds.symm htokne htokd hd]
        unfold tokenize_loop
        dsimp only
        have hbuf : pre ++ ds ++ tok ++ NUL :: r3 = (pre ++ ds ++ tok ++ [NUL]) ++ r3 := by simp
        have hlen : (pre ++ ds ++ tok).length + 1 = (pre ++ ds ++ tok ++ [NUL]).length := by
          rw [List.length_append (pre ++ ds ++ tok) [NUL], List.length_singleton]
        rw [hbuf, hlen, toks_cons_delim DELIM n d r3 hd]
        have hr3 : NUL ∉ r3 := fun hm => hr (by rw [hrr]; simp [hm])
        rw [ih (pre ++ ds ++ tok ++ [NUL]) r3 (args ++ [(pre ++ ds).length]) (done ++ [tok]) hr3]
        · simp
        · apply List.rel_append
          · refine List.Forall₂.imp ?_ hst
            intro t tk h Y
            have := h (ds ++ tok ++ [NUL] ++ Y)
            simpa [List.append_assoc] using this
          · refine List.Forall₂.cons ?_ List.Forall₂.nil
            intro Y
            have := cstr_append_left (pre ++ ds) tok Y htoknul
            simpa [List.append_assoc] using this

theorem toks_mem (delim : CStr) (n : Nat) (r t : CStr) (ht : t ∈ toks delim n r) :
    t ≠ [] ∧ ∀ c ∈ t, c ∉ delim := by
  induction n generalizing r with
  | zero => simp [toks] at ht
  | succ n ih =>
    rw [toks] at ht
    split at ht
    · simp at ht
    · next hne =>
      rw [List.mem_cons] at ht
      rcases ht with rfl | ht
      · constructor
        · obtain ⟨c, cs, hcs⟩ := List.exists_cons_of_ne_nil hne
          have hc : c ∉ delim := by simpa using dropWhile_head_false _ _ _ _ hcs
          rw [hcs]
          simp [hc]
        · intro c hc
          simpa using List.mem_takeWhile_imp hc
      · exact ih _ ht

/-- C18 (amended): the tokens that the interactive tokenizer stores are, in order, the
first `MAX_ARGS - 1 = 9` (at most) maximal runs of characters other than space and
newline; no token is empty and none contains a space or a newline. -/
theorem tokenize_first_runs (raw : CStr) (h : NUL ∉ raw) :
    (tokenize raw).2 = (maximal_runs DELIM raw).take (MAX_ARGS - 1) ∧
    (∀ t ∈ (tokenize raw).2, t ≠ [] ∧ ∀ c ∈ t, c ∉ DELIM) := by
  have h1 : (tokenize raw).2 = toks DELIM (MAX_ARGS - 1) raw := by
    have := tokenize_loop_spec (MAX_ARGS - 1) [] raw [] [] h List.Forall₂.nil
    simpa [tokenize] using this
  refine ⟨by rw [h1, take_maximal_runs], ?_⟩
  intro t ht
  rw [h1] at ht
  exact toks_mem DELIM _ raw t ht

/-- Instance of C18 (amended): `ls  -l /tmp`. -/
theorem tokenize_first_runs_witness :
    (tokenize "ls  -l /tmp\n".toList).2
      = (maximal_runs DELIM "ls  -l /tmp\n".toList).take (MAX_ARGS - 1) ∧
    (maximal_runs DELIM "ls  -l /tmp\n".toList).take (MAX_ARGS - 1)
      = ["ls".toList, "-l".toList, "/tmp".toList] :=
  ⟨(tokenize_first_runs "ls  -l /tmp\n".toList (by decide)).1, by decide⟩

/-- C18 fails as stated: of the ten runs of `a b c d e f g h i j` only nine are
stored, `j` is dropped; and `a<TAB>b` is stored as one token that contains a white-space
character, where the runs of non-white-space characters are `a` and `b`. -/
theorem tokenize_counterexample :
    (tokenize "a b c d e f g h i j\n".toList).2
      = ["a".toList, "b".toList, "c".toList, "d".toList, "e".toList, "f".toList, "g".toList,
          "h".toList, "i".toList] ∧
    maximal_runs WHITESPACE "a b c d e f g h i j\n".toList
      = ["a".toList, "b".toList, "c".toList, "d".toList, "e".toList, "f".toList, "g".toList,
          "h".toList, "i".toList, "j".toList] ∧
    (tokenize "a\tb\n".toList).2 = ["a\tb".toList] ∧
    maximal_runs WHITESPACE "a\tb\n".toList = ["a".toList, "b".toList] ∧
    isspace '\t' = true := by
  refine ⟨by decide, by decide, by decide, by decide, by decide⟩

/-! ## The alias command grammar -/

theorem scan_for_some (ch : Char) (l : CStr) (k : Nat) (h : scan_for ch l = some k) :
    ∃ pre post, l = pre ++ ch :: post ∧ pre.length = k ∧ ch ∉ pre := by
  induction l generalizing k with
  | nil => simp [scan_for] at h
  | cons x xs ih =>
    rw [scan_for] at h
    split at h
    · cases h
    · split at h
      · next hx =>
        cases h
        exact ⟨[], xs, by rw [hx]; rfl, rfl, by simp⟩
      · next hx =>
        cases hs : scan_for ch xs with
        | none => rw [hs] at h; cases h
        | some j =>
          rw [hs] at h
          cases h
          obtain ⟨pre, post, h1, h2, h3⟩ := ih j hs
          refine ⟨x :: pre, post, by rw [h1]; rfl, by simp [h2], ?_⟩
          simp only [List.mem_cons, not_or]
          exact ⟨fun e => hx e.symm, h3⟩

theorem byteAt_cons_succ (x : Char) (l : CStr) (i : Nat) :
    byteAt (x :: l) (i + 1) = byteAt l i := by
  simp [byteAt]

theorem byteAt_append_succ (A post : CStr) (x : Char) :
    byteAt (A ++ x :: post) (A.length + 1) = byteAt post 0 := by
  induction A with
  | nil => rfl
  | cons a A ih => simpa [byteAt] using ih

theorem byteAt_zero_eq (l : CStr) (ch : Char) (hch : ch ≠ NUL) (h : byteAt l 0 = ch) :
    ∃ t, l = ch :: t := by
  cases l with
  | nil => exact absurd h.symm hch
  | cons x t => exact ⟨t, by simp [byteAt] at h; rw [h]⟩

/-- C11 (amended): on a line `alias ` followed by at least one character, when that
character is `-` and the next one is neither `c` nor `r`, or when it is not `-` and the
line is not of the shape `alias NAME='COMMAND'` followed by anything (an `=` behind the
first character of the name, a single quote right after it, a closing single quote),
`execute_alias_command` prints the usage error and returns the list unchanged. -/
theorem alias_usage_error (reg : List Alias) (c : Char) (rest : CStr)
    (hnul : NUL ∉ c :: rest)
    (hopt : c = '-' → rest.head? ≠ some 'c' ∧ rest.head? ≠ some 'r')
    (hdef : c ≠ '-' → ¬ ∃ nt exp tail,
      rest = nt ++ ['=', '\''] ++ exp ++ ['\''] ++ tail ∧ '=' ∉ nt ∧ '\'' ∉ exp) :
    execute_alias_command ("alias ".toList ++ c :: rest) reg
      = some (reg, incorrect_usage_out) := by
  have e1 : "alias ".toList = ['a', 'l', 'i', 'a', 's', ' '] := rfl
  have e2 : "alias -".toList = ['a', 'l', 'i', 'a', 's', ' ', '-'] := rfl
  have hC : "alias ".toList ++ c :: rest
      = 'a' :: 'l' :: 'i' :: 'a' :: 's' :: ' ' :: c :: rest := by rw [e1]; rfl
  rw [hC]
  have hall : NUL ∉ 'a' :: 'l' :: 'i' :: 'a' :: 's' :: ' ' :: c :: rest := by
    simp only [List.mem_cons, not_or] at hnul ⊢
    exact ⟨by decide, by decide, by decide, by decide, by decide, by decide, hnul.1, hnul.2⟩
  have hcs := cstr_zero_of_no_NUL _ hall
  have hq0 : ('\'' : Char) ≠ NUL := by decide
  unfold execute_alias_command
  by_cases hc : c = '-'
  · subst hc
    have h1 : strncmp_eq ('a' :: 'l' :: 'i' :: 'a' :: 's' :: ' ' :: '-' :: rest)
        "alias -".toList 7 = true := by
      simp only [strncmp_eq, hcs, e2]; simp
    obtain ⟨ho1, ho2⟩ := hopt rfl
    have h7 : byteAt ('a' :: 'l' :: 'i' :: 'a' :: 's' :: ' ' :: '-' :: rest) 7
        = byteAt rest 0 := rfl
    have h2 : byteAt rest 0 ≠ 'c' := by
      intro e
      obtain ⟨t, ht⟩ := byteAt_zero_eq rest 'c' (by decide) e
      exact ho1 (by rw [ht]; rfl)
    have h3 : byteAt rest 0 ≠ 'r' := by
      intro e
      obtain ⟨t, ht⟩ := byteAt_zero_eq rest 'r' (by decide) e
      exact ho2 (by rw [ht]; rfl)
    rw [h1, h7]
    simp only [if_true, if_neg h2, if_neg h3]
  · have h1 : strncmp_eq ('a' :: 'l' :: 'i' :: 'a' :: 's' :: ' ' :: c :: rest)
        "alias -".toList 7 = false := by
      simp only [strncmp_eq, hcs, e2]; simp [hc]
    have h2 : ¬ strlen ('a' :: 'l' :: 'i' :: 'a' :: 's' :: ' ' :: c :: rest) < 5 := by
      simp only [strlen, hcs]; simp
    have h3 : byteAt ('a' :: 'l' :: 'i' :: 'a' :: 's' :: ' ' :: c :: rest) 5 ≠ NUL := by
      show (' ' : Char) ≠ NUL
      decide
    have h4 : ¬ strlen ('a' :: 'l' :: 'i' :: 'a' :: 's' :: ' ' :: c :: rest) < 7 := by
      simp only [strlen, hcs]; simp
    have h5 : ('a' :: 'l' :: 'i' :: 'a' :: 's' :: ' ' :: c :: rest).drop 7 = rest := rfl
    rw [h1]
    simp only [Bool.false_eq_true, if_false, h2, h3, h4, ne_eq, not_false_eq_true, if_true, h5]
    cases hs : scan_for '=' rest with
    | none => rfl
    | some k =>
      obtain ⟨nt, post, hrest, hk, hnt⟩ := scan_for_some '=' rest k hs
      dsimp only
      have hset : ('a' :: 'l' :: 'i' :: 'a' :: 's' :: ' ' :: c :: rest).set (7 + k) NUL
          = ('a' :: 'l' :: 'i' :: 'a' :: 's' :: ' ' :: c :: nt) ++ NUL :: post := by
        have hl : 7 + k = ('a' :: 'l' :: 'i' :: 'a' :: 's' :: ' ' :: c :: nt).length := by
          simp [hk]; omega
        rw [hl, hrest]
        exact set_append_length ('a' :: 'l' :: 'i' :: 'a' :: 's' :: ' ' :: c :: nt) post '=' NUL
      rw [hset]
      have hb : byteAt (('a' :: 'l' :: 'i' :: 'a' :: 's' :: ' ' :: c :: nt) ++ NUL :: post)
          (7 + k + 1) = byteAt post 0 := by
        have hl : 7 + k + 1
            = ('a' :: 'l' :: 'i' :: 'a' :: 's' :: ' ' :: c :: nt).length + 1 := by
          simp [hk]; omega
        rw [hl]
        exact byteAt_append_succ _ _ _
      rw [hb]
      by_cases hq : byteAt post 0 = '\''
      · rw [if_pos hq]
        obtain ⟨post1, hpost⟩ := byteAt_zero_eq post '\'' hq0 hq
        have hdrop : (('a' :: 'l' :: 'i' :: 'a' :: 's' :: ' ' :: c :: nt) ++ NUL :: post).drop
            (7 + k + 2) = post1 := by
          rw [hpost]
          have : ('a' :: 'l' :: 'i' :: 'a' :: 's' :: ' ' :: c :: nt) ++ NUL :: '\'' :: post1
              = (('a' :: 'l' :: 'i' :: 'a' :: 's' :: ' ' :: c :: nt) ++ [NUL, '\'']) ++ post1 := by
            simp
          rw [this]
          exact List.drop_left' (by simp [hk]; omega)
        rw [hdrop]
        cases hs2 : scan_for '\'' post1 with
        | none => rfl
        | some j =>
          exfalso
          obtain ⟨exp, tail, hp1, _, hexp⟩ := scan_for_some '\'' post1 j hs2
          exact hdef hc ⟨nt, exp, tail, by rw [hrest, hpost, hp1]; simp, hnt, hexp⟩
      · rw [if_neg hq]

/-- Instance of C11 (amended): `alias foo=bar` (no quotes) and `alias -x`. -/
theorem alias_usage_error_witness :
    execute_alias_command ("alias ".toList ++ 'f' :: "oo=bar".toList)
        [⟨"greet".toList, "echo hello".toList⟩]
      = some ([⟨"greet".toList, "echo hello".toList⟩], incorrect_usage_out) ∧
    execute_alias_command ("alias ".toList ++ '-' :: "x".toList)
        [⟨"greet".toList, "echo hello".toList⟩]
      = some ([⟨"greet".toList, "echo hello".toList⟩], incorrect_usage_out) :=
  ⟨alias_usage_error _ 'f' "oo=bar".toList (by decide) (by decide) (fun _ h => by
      obtain ⟨nt, exp, tail, h1, _, _⟩ := h
      have h2 : '\'' ∈ "oo=bar".toList := by rw [h1]; simp
      revert h2
      decide),
   alias_usage_error _ '-' "x".toList (by decide) (fun _ => by decide)
     (fun h => absurd rfl h)⟩

/-- C11 fails as stated: `alias -cx` and `alias -rgreet x` are none of the four forms,
yet the first empties the list and the second removes `greet`, both without a usage
error. -/
theorem alias_usage_counterexample :
    execute_alias_command "alias -cx".toList [⟨"greet".toList, "echo hello".toList⟩]
      = some ([], []) ∧
    execute_alias_command "alias -rgreet x".toList [⟨"greet".toList, "echo hello".toList⟩]
      = some ([], []) := by
  refine ⟨by decide, by decide⟩

/-- C14: on the line `alias -r NAME`, NAME a non-empty token without white space that
fits the buffer `alias_name[BUFFER_SIZE]`, optionally followed by white space and more
text, `execute_alias_command` returns `alias_remove` of the list and NAME, and prints
nothing. -/
theorem alias_remove_command (reg : List Alias) (name tail : CStr)
    (hne : name ≠ []) (hsp : ∀ c ∈ name, isspace c = false) (hnul : NUL ∉ name)
    (hlen : name.length < BUFFER_SIZE)
    (htail : ∀ c, tail.head? = some c → isspace c = true) (hnult : NUL ∉ tail) :
    execute_alias_command ("alias -r ".toList ++ name ++ tail) reg
      = some (alias_remove reg name, []) := by
  have e1 : "alias -r ".toList = ['a', 'l', 'i', 'a', 's', ' ', '-', 'r', ' '] := rfl
  have e2 : "alias -".toList = ['a', 'l', 'i', 'a', 's', ' ', '-'] := rfl
  have e3 : "alias".toList = ['a', 'l', 'i', 'a', 's'] := rfl
  have e4 : "-r".toList = ['-', 'r'] := rfl
  obtain ⟨n0, nt, rfl⟩ := List.exists_cons_of_ne_nil hne
  have hn0 : isspace n0 = false := hsp n0 (List.mem_cons_self n0 nt)
  have hC : "alias -r ".toList ++ (n0 :: nt) ++ tail
      = 'a' :: 'l' :: 'i' :: 'a' :: 's' :: ' ' :: '-' :: 'r' :: ' ' :: n0 :: (nt ++ tail) := by
    rw [e1]; rfl
  rw [hC]
  have hall : NUL ∉ 'a' :: 'l' :: 'i' :: 'a' :: 's' :: ' ' :: '-' :: 'r' :: ' ' :: n0 :: (nt ++ tail) := by
    simp only [List.mem_append, List.mem_cons, not_or]
    exact ⟨by decide, by decide, by decide, by decide, by decide, by decide, by decide,
      by decide, by decide, fun e => hnul (e ▸ List.mem_cons_self n0 nt),
      fun hm => hnul (List.mem_cons_of_mem n0 hm), hnult⟩
  have hcs := cstr_zero_of_no_NUL _ hall
  have htw : (n0 :: (nt ++ tail)).takeWhile (fun c => !isspace c) = n0 :: nt := by
    cases tail with
    | nil =>
      rw [List.append_nil, List.takeWhile_eq_self_iff]
      intro c hc; simp [hsp c hc]
    | cons t ts =>
      exact takeWhile_append_stop _ (n0 :: nt) ts t (fun c hc => by simp [hsp c hc])
        (by simp [htail t rfl])
  have hsp1 : isspace ' ' = true := by decide
  have hsp2 : isspace '-' = false := by decide
  have hs : sscanf_alias_r
      ('a' :: 'l' :: 'i' :: 'a' :: 's' :: ' ' :: '-' :: 'r' :: ' ' :: n0 :: (nt ++ tail))
      = some (n0 :: nt) := by
    unfold sscanf_alias_r
    rw [hcs, e3, e4]
    simp only [match_lit, List.length_cons, List.length_nil, List.take, List.drop, if_true,
      List.dropWhile_cons, hsp1, hsp2, Bool.false_eq_true, if_false, hn0, htw]
    rw [if_neg]
    simp only [not_or, not_le]
    exact ⟨by simp, hlen⟩
  have h1 : strncmp_eq
      ('a' :: 'l' :: 'i' :: 'a' :: 's' :: ' ' :: '-' :: 'r' :: ' ' :: n0 :: (nt ++ tail))
      "alias -".toList 7 = true := by
    simp only [strncmp_eq, hcs, e2]
    simp
  have h2 : byteAt
      ('a' :: 'l' :: 'i' :: 'a' :: 's' :: ' ' :: '-' :: 'r' :: ' ' :: n0 :: (nt ++ tail)) 7
      = 'r' := rfl
  unfold execute_alias_command
  rw [h1, h2, hs]
  simp

/-- Instance of C14: `alias -r greet` on the list holding only `greet` gives the empty
list, on which a bare `alias` prints nothing. -/
theorem alias_remove_command_witness :
    execute_alias_command ("alias -r ".toList ++ "greet".toList ++ [])
        [⟨"greet".toList, "echo hello".toList⟩]
      = some (alias_remove [⟨"greet".toList, "echo hello".toList⟩] "greet".toList, []) ∧
    alias_remove [⟨"greet".toList, "echo hello".toList⟩] "greet".toList = [] ∧
    execute_alias_command "alias".toList [] = some ([], []) :=
  ⟨alias_remove_command _ "greet".toList [] (by decide) (by decide) (by decide) (by decide)
    (by decide) (by decide), by decide, by decide⟩

/-! ## Further evaluations at concrete inputs -/

/-- C12: in the loop of `main`, the line `alias greet='echo hello'` on the empty list
stores `greet` with the command `'echo` (opening quote kept, cut at the blank), and a
following bare `alias` prints the usage text; `execute_alias_command`, which `main`
never calls, stores `echo hello`. -/
theorem main_alias_keeps_quote_and_cuts :
    (run (ShellState.init "/bin".toList)
        [(w0, "alias greet='echo hello'\n".toList)]).state.map (fun s => s.alias_ptr)
      = some [⟨"greet".toList, "'echo".toList⟩] ∧
    (run (ShellState.init "/bin".toList)
        [(w0, "alias greet='echo hello'\n".toList)]).state.map
          (fun s => alias_query s.alias_ptr "greet".toList)
      ≠ some (some "echo hello".toList) ∧
    (run (ShellState.init "/bin".toList)
        [(w0, "alias greet='echo hello'\n".toList), (w0, "alias\n".toList)]).events
      = some [Event.stdout (ALIAS_USAGE ++ ['\n'])] ∧
    execute_alias_command "alias greet='echo hello'".toList []
      = some ([⟨"greet".toList, "echo hello".toList⟩], []) := by
  refine ⟨by decide, by decide, by rfl, by decide⟩

/-- C15: with `PATH=/bin`, `path + /usr/local/bin` is undefined: `path_copy` has
`strlen(PATH) + 1` bytes and is full, so already `strcat(path_copy, ":")` writes past
its end. -/
theorem path_add_overflows :
    interactive_step w0 (ShellState.init "/bin".toList) "path + /usr/local/bin\n".toList
      = Outcome.undefined ∧
    strcat (ShellState.init "/bin".toList).path_copy [':'] = none := by
  refine ⟨by decide, by decide⟩

/-- C16: with `PATH=/usr/bin:/bin`, `path - /not/present` is undefined: `strtok` cuts
`path_copy` behind `/usr/bin`, and `strcat(path_ptr, path_elem)` then copies that
element onto itself. -/
theorem path_remove_absent_is_undefined :
    interactive_step w0 (ShellState.init "/usr/bin:/bin".toList) "path - /not/present\n".toList
      = Outcome.undefined ∧
    (strtok "/usr/bin:/bin".toList 0 [':']).buf = "/usr/bin".toList ++ NUL :: "/bin".toList ∧
    strcat_within ("/usr/bin".toList ++ NUL :: "/bin".toList) 0 = none := by
  refine ⟨by decide, by decide, by decide⟩

/-- C17: with `PATH=/bin`, `path - /bin` sets the path to `/bi` instead of the empty
list; with `PATH=/usr/bin:/bin`, `path - /usr/bin` is undefined (`strcat` of `/bin` onto
the buffer it lies in). -/
theorem path_remove_present_is_wrong :
    (interactive_step w0 (ShellState.init "/bin".toList) "path - /bin\n".toList).events
      = some [Event.setenv_PATH "/bi".toList] ∧
    (run (ShellState.init "/bin".toList)
        [(w0, "path - /bin\n".toList), (w0, "path\n".toList)]).events
      = some [Event.setenv_PATH "/bi".toList, Event.stdout "/bi\n".toList] ∧
    interactive_step w0 (ShellState.init "/usr/bin:/bin".toList) "path - /usr/bin\n".toList
      = Outcome.undefined := by
  refine ⟨by decide, by decide, by decide⟩

/-- C19: the line `who | grep root > out.txt` is handled by the plain `who` branch: one
child running `who` with all six tokens as arguments, no pipe, no second child, no
redirection. -/
theorem who_pipeline_not_taken :
    (tokenize "who | grep root > out.txt\n".toList).2
      = ["who".toList, "|".toList, "grep".toList, "root".toList, ">".toList, "out.txt".toList] ∧
    (interactive_step w0 (ShellState.init "/bin".toList)
        "who | grep root > out.txt\n".toList).events
      = some [Event.spawn ["who".toList, "|".toList, "grep".toList, "root".toList, ">".toList,
          "out.txt".toList] none none] := by
  refine ⟨by decide, by decide⟩

/-- C20: on a line of blanks (or an empty line) `args[0]` is `NULL` when it is compared
with `"cd"`; on a bare `who` `args[1]` is `NULL` when it is compared with `"<"`; on
`who <` `args[2]` is `NULL` when it is handed to `open`. -/
theorem dispatch_compares_null :
    (tokenize "   \n".toList).2 = [] ∧
    interactive_step w0 (ShellState.init "/bin".toList) "   \n".toList = Outcome.undefined ∧
    (tokenize "\n".toList).2 = [] ∧
    interactive_step w0 (ShellState.init "/bin".toList) "\n".toList = Outcome.undefined ∧
    (tokenize "who\n".toList).2 = ["who".toList] ∧
    interactive_step w0 (ShellState.init "/bin".toList) "who\n".toList = Outcome.undefined ∧
    (tokenize "who <\n".toList).2 = ["who".toList, "<".toList] ∧
    interactive_step w0 (ShellState.init "/bin".toList) "who <\n".toList = Outcome.undefined := by
  refine ⟨by decide, by decide, by decide, by decide, by decide, by decide, by decide, by decide⟩

theorem alias_display_eq_map (reg : List Alias) :
    alias_display reg
      = reg.map (fun a => a.name ++ "=\"".toList ++ a.command ++ "\"\n".toList) := by
  induction reg with
  | nil => rfl
  | cons a reg ih => simp [alias_display, ih]

/-- C13: on the command `alias`, `execute_alias_command` returns the list unchanged and
prints one line `name="command"` per node, head first. -/
theorem bare_alias_lists (reg : List Alias) :
    execute_alias_command "alias".toList reg
      = some (reg, reg.map (fun a => a.name ++ "=\"".toList ++ a.command ++ "\"\n".toList)) := by
  rw [← alias_display_eq_map]
  rfl

/-! ## Replay and batch mode -/

set_option maxRecDepth 4000 in
/-- C21: `myhistory -e N` rewrites the entry it selects.  After `echo a b` and
`c1` .. `c9`, slot 0 holds `echo a b` and `myhistory` lists it as `1 echo a b`; after
`myhistory -e 10`, which selects slot 0, the slot holds `echo`, NUL, `a`, NUL, `b`, NUL,
and `myhistory` lists it as `1 echo`, without the arguments and the newline. -/
theorem myhistory_e_changes_entry :
    (run (ShellState.init "/bin".toList) replay_lines).state.map
        (fun s => (s.history_count, s.history.getD 0 none))
      = some (10, some "echo a b\n".toList) ∧
    (run (ShellState.init "/bin".toList)
        (replay_lines ++ [(w0, "myhistory -e 10\n".toList)])).state.map
        (fun s => (s.history_count, s.history.getD 0 none))
      = some (11, some ("echo".toList ++ NUL :: 'a' :: NUL :: 'b' :: [NUL])) ∧
    ((run (ShellState.init "/bin".toList)
        (replay_lines ++ [(w0, "myhistory\n".toList)])).events.map
        (fun ev => ev.get? 10)) = some (some (Event.stdout "1 echo a b\n".toList)) ∧
    ((run (ShellState.init "/bin".toList)
        (replay_lines ++ [(w0, "myhistory -e 10\n".toList), (w0, "myhistory\n".toList)])).events.map
        (fun ev => ev.get? 10)) = some (some (Event.stdout "1 echo".toList)) := by
  refine ⟨by decide, by decide, by decide, by decide⟩

theorem tokenize_loop_length (n : Nat) (st : Strtok) (args : List Nat) :
    (tokenize_loop n st args).2.length ≤ args.length + n := by
  induction n generalizing st args with
  | zero => simp [tokenize_loop]
  | succ n ih =>
    unfold tokenize_loop
    split
    · simp
    · next t _ =>
      have := ih (strtok st.buf st.save DELIM) (args ++ [t])
      simp only [List.length_append, List.length_singleton] at this
      omega

theorem tokenize_length (raw : CStr) : (tokenize raw).2.length ≤ MAX_ARGS - 1 := by
  have := tokenize_loop_length (MAX_ARGS - 1) (strtok raw 0 DELIM) []
  simpa [tokenize] using this

/-- C22: the interactive tokenizer never stores more than `MAX_ARGS - 1` tokens, but
the batch tokenizer has no bound: on the 20-character line `a b c d e f g h i j` it
stores ten tokens in `args[0..9]` and writes `NULL` to `args[10]`, past the array; a
line with fewer tokens is run as a command. -/
theorem batch_tokenizer_overflows :
    (∀ raw : CStr, (tokenize raw).2.length ≤ MAX_ARGS - 1) ∧
    "a b c d e f g h i j\n".toList.length ≤ MAX_LINE - 1 ∧
    (batch_tokenize "a b c d e f g h i j\n".toList).2
      = ["a".toList, "b".toList, "c".toList, "d".toList, "e".toList, "f".toList, "g".toList,
          "h".toList, "i".toList, "j".toList] ∧
    MAX_ARGS ≤ (batch_tokenize "a b c d e f g h i j\n".toList).2.length ∧
    batch_step w0 (ShellState.init "/bin".toList) "a b c d e f g h i j\n".toList
      = Outcome.undefined ∧
    (batch_step w0 (ShellState.init "/bin".toList) "ls -l\n".toList).events
      = some [Event.spawn ["ls".toList, "-l".toList] none none] := by
  refine ⟨tokenize_length, by decide, by decide, by decide, by decide, by decide⟩

theorem batch_tokenize_loop_eq (n : Nat) (st : Strtok) (args : List Nat) :
    batch_tokenize_loop n st args = tokenize_loop n st args := by
  induction n generalizing st args with
  | zero => rfl
  | succ n ih =>
    unfold batch_tokenize_loop tokenize_loop
    cases st.token with
    | none => rfl
    | some t => exact ih _ _

theorem runs_aux_length (delim cur r : CStr) :
    (runs_aux delim cur r).length ≤ r.length + (if cur = [] then 0 else 1) := by
  induction r generalizing cur with
  | nil => unfold runs_aux; split <;> simp
  | cons c cs ih =>
    unfold runs_aux
    split
    · split
      · have := ih []
        simp only [if_true, Nat.add_zero] at this
        simp only [List.length_cons]
        omega
      · have := ih []
        simp only [if_true, Nat.add_zero] at this
        simp only [List.length_cons]
        omega
    · have := ih (cur ++ [c])
      rw [if_neg (by simp)] at this
      simp only [List.length_cons]
      split <;> omega

/-- The batch tokenizer stores every run of the line: the bound on the number of
`strtok` calls in its model is never reached. -/
theorem batch_tokenize_all_runs (raw : CStr) (h : NUL ∉ raw) :
    (batch_tokenize raw).2 = maximal_runs DELIM raw := by
  have h1 : (batch_tokenize raw).2 = toks DELIM (raw.length + 1) raw := by
    have := tokenize_loop_spec (raw.length + 1) [] raw [] [] h List.Forall₂.nil
    simpa [batch_tokenize, batch_tokenize_loop_eq] using this
  rw [h1, ← take_maximal_runs]
  apply List.take_of_length_le
  have := runs_aux_length DELIM [] raw
  simp only [if_true, Nat.add_zero] at this
  exact le_trans this (Nat.le_succ _)

end Shell
